import Mathlib

/-!
Verification of the Totem frontier subsystem, the engine destination-slot
resolution and the APSP client, embedded from the repository sources:
the frontier interface implementation (`frontier_*` functions), the engine
interface header (`ENGINE_FETCH_DST`) and `src/alg/totem_apsp.cu`.

Modelling conventions.  C arrays are modelled as total functions `Nat → α`
updated pointwise (`store_set`); bitmaps as `List Bool` (bit `v` of the
bitmap is element `v`; reading past the end gives `false`, matching the
zeroed trailing bits of the last allocated word); the unsigned machine
integers `vid_t`/`eid_t` as `Nat`, with truncated subtraction exactly where
the code subtracts; `weight_t` as `ENat` with `WEIGHT_MAX = ⊤`.  GPU kernels
are embedded at their canonical sequential schedule (blocks, warps and lanes
in index order): the atomics they use (`atomicAdd`, `atomicMin`) combine
commutatively and associatively, so every property stated here about counts,
id sets and minima is schedule independent.
-/

namespace Totem

/-- Pointwise update of a C array modelled as a total function. -/
def store_set {α : Type} (s : Nat → α) (i : Nat) (v : α) : Nat → α :=
  fun j => if j = i then v else s j

theorem store_set_eq {α : Type} (s : Nat → α) (i : Nat) (v : α) :
    store_set s i v i = v := by
  simp [store_set]

theorem store_set_ne {α : Type} (s : Nat → α) (i : Nat) (v : α) {j : Nat} (h : j ≠ i) :
    store_set s i v j = s j := by
  simp [store_set, h]

/-- Invariant lemma for a left fold over `List.range n`. -/
theorem foldl_range_inv {α : Type} (n : Nat) (f : α → Nat → α) (P : Nat → α → Prop) (a0 : α)
    (h0 : P 0 a0) (hs : ∀ m a, m < n → P m a → P (m + 1) (f a m)) :
    P n ((List.range n).foldl f a0) := by
  induction n with
  | zero => simpa using h0
  | succ n ih =>
      rw [List.range_succ, List.foldl_append]
      exact hs n _ (Nat.lt_succ_self n)
        (ih (fun m a hm hp => hs m a (Nat.lt_succ_of_lt hm) hp))

/-- Invariant lemma for a left fold over a list, tracking the processed part. -/
theorem foldl_inv_pre {α β : Type} (L : List β) (f : α → β → α) (P : List β → α → Prop)
    (a0 : α) (h0 : P [] a0)
    (hs : ∀ pre b a, (∃ R, pre ++ b :: R = L) → P pre a → P (pre ++ [b]) (f a b)) :
    P L (L.foldl f a0) := by
  suffices h : ∀ R pre a, pre ++ R = L → P pre a → P L (R.foldl f a) by
    exact h L [] a0 rfl h0
  intro R
  induction R with
  | nil =>
      intro pre a hpre hp
      rw [List.append_nil] at hpre
      subst hpre
      exact hp
  | cons b R ih =>
      intro pre a hpre hp
      have h1 : (pre ++ [b]) ++ R = L := by simpa [List.append_assoc] using hpre
      exact ih (pre ++ [b]) (f a b) h1 (hs pre b a ⟨R, hpre⟩ hp)

/-- Splitting a list at the first occurrence of an element. -/
theorem mem_split_first {α : Type} {a : α} {l : List α} (h : a ∈ l) :
    ∃ s t, l = s ++ a :: t ∧ a ∉ s := by
  induction l with
  | nil => cases h
  | cons b l ih =>
      by_cases hb : a = b
      · exact ⟨[], l, by simp [hb], by simp⟩
      · have h' : a ∈ l := by
          rcases List.mem_cons.mp h with h1 | h1
          · exact absurd h1 hb
          · exact h1
        rcases ih h' with ⟨s, t, hst, hns⟩
        exact ⟨b :: s, t, by simp [hst], by simp [hb, hns]⟩

/-! ## Frontier subsystem: data model and `build_list`

`frontier_state_t` carries the two bitmaps, the dense list, the atomic
counter and the degree-boundary array of one partition. -/

structure frontier_state_t where
  len : Nat
  current : List Bool
  visited_last : List Bool
  list : List Nat
  count : Nat
  boundaries : Nat → Nat

/-- `bitmap_bits_to_words`: number of 32-bit words holding `len` bits. -/
def bitmap_bits_to_words (len : Nat) : Nat := (len + 31) / 32

/-- Reading bit `v` of a bitmap (`bitmap_is_set` on word `v / 32`, lane
`v % 32`); past-the-end bits read as zero. -/
def bitmap_get (b : List Bool) (v : Nat) : Bool := b.getD v false

/-- One warp of `frontier_build_kernel`: the 32 threads covering word `widx`
each test their own bit (`bitmap_is_set(word, lane)`), and the threads whose
bit is set append their global vertex id `v = widx * 32 + lane`; the
intra-warp exclusive scan orders the appended ids by lane. -/
def frontier_build_word (current : List Bool) (widx : Nat) : List Nat :=
  ((List.range 32).filter (fun lane => bitmap_get current (widx * 32 + lane))).map
    (fun lane => widx * 32 + lane)

/-- `frontier_build_kernel`: each word of `current` is compacted by one warp
and the two-level (warp then block) atomic reservations concatenate the
per-word contributions into the dense list; at the canonical schedule the
contributions appear in word order. -/
def frontier_build_kernel_ids (current : List Bool) : List Nat :=
  (List.range (bitmap_bits_to_words current.length)).flatMap (frontier_build_word current)

/-- `frontier_update_list_gpu`: reset the global counter to zero
(`cudaMemsetAsync(state->count, 0, ...)`), then run `frontier_build_kernel`,
which writes the compacted ids and accumulates the total into the counter
with per-block `atomicAdd`s. -/
def frontier_update_list_gpu (st : frontier_state_t) : frontier_state_t :=
  let st0 : frontier_state_t := { st with count := 0 }
  let ids := frontier_build_kernel_ids st0.current
  { st0 with list := ids, count := st0.count + ids.length }

theorem bind_word_eq_filter (b : List Bool) (m : Nat) :
    (List.range m).flatMap (frontier_build_word b) =
      (List.range (m * 32)).filter (fun v => bitmap_get b v) := by
  induction m with
  | zero => simp
  | succ m ih =>
      rw [List.range_succ, List.flatMap_append, ih]
      have h1 : (m + 1) * 32 = m * 32 + 32 := by ring
      rw [h1, List.range_add, List.filter_append]
      congr 1
      simp only [List.flatMap_cons, List.flatMap_nil, List.append_nil]
      rw [List.filter_map]
      rfl

theorem build_ids_eq_filter (b : List Bool) :
    frontier_build_kernel_ids b =
      (List.range b.length).filter (fun v => bitmap_get b v) := by
  unfold frontier_build_kernel_ids
  rw [bind_word_eq_filter]
  have hle : b.length ≤ bitmap_bits_to_words b.length * 32 := by
    unfold bitmap_bits_to_words
    have h1 := Nat.div_add_mod (b.length + 31) 32
    have h2 : (b.length + 31) % 32 < 32 := Nat.mod_lt _ (by norm_num)
    omega
  have hsplit : bitmap_bits_to_words b.length * 32 =
      b.length + (bitmap_bits_to_words b.length * 32 - b.length) := by omega
  rw [hsplit, List.range_add, List.filter_append]
  have h0 : (List.map (fun x => b.length + x)
      (List.range (bitmap_bits_to_words b.length * 32 - b.length))).filter
        (fun v => bitmap_get b v) = [] := by
    rw [List.filter_eq_nil_iff]
    intro a ha
    rcases List.mem_map.mp ha with ⟨x, _, rfl⟩
    simp only [bitmap_get]
    rw [List.getD_eq_default]
    · simp
    · omega
  rw [h0, List.append_nil]

theorem mem_build_ids (b : List Bool) (v : Nat) :
    v ∈ frontier_build_kernel_ids b ↔ v < b.length ∧ bitmap_get b v = true := by
  rw [build_ids_eq_filter, List.mem_filter, List.mem_range]

theorem build_ids_nodup (b : List Bool) : (frontier_build_kernel_ids b).Nodup := by
  rw [build_ids_eq_filter]
  exact (List.nodup_range _).filter _

theorem build_ids_length (b : List Bool) :
    (frontier_build_kernel_ids b).length = b.count true := by
  rw [build_ids_eq_filter]
  induction b using List.reverseRecOn with
  | nil => simp
  | append_singleton b a ih =>
      have hlen : (b ++ [a]).length = b.length + 1 := by simp
      rw [hlen, List.range_succ, List.filter_append, List.length_append]
      have hcongr : (List.range b.length).filter (fun v => bitmap_get (b ++ [a]) v) =
          (List.range b.length).filter (fun v => bitmap_get b v) := by
        apply List.filter_congr
        intro v hv
        have hvlt : v < b.length := List.mem_range.mp hv
        simp only [bitmap_get]
        rw [List.getD_append _ _ _ _ hvlt]

      rw [hcongr, ih]
      have hlast : bitmap_get (b ++ [a]) b.length = a := by
        simp only [bitmap_get]
        rw [List.getD_append_right _ _ _ _ (le_refl _)]
        simp
      rw [List.count_append]
      cases a <;> simp [hlast]

/-- Evaluating a mapped range at an in-range index. -/
theorem getD_map_range {α : Type} (f : Nat → α) (n v : Nat) (d : α) (h : v < n) :
    ((List.range n).map f).getD v d = f v := by
  rw [List.getD_eq_getElem?_getD, List.getElem?_map, List.getElem?_range h]
  rfl

/-- Evaluating a mapped range past the end gives the default. -/
theorem getD_map_range_ge {α : Type} (f : Nat → α) (n v : Nat) (d : α) (h : n ≤ v) :
    ((List.range n).map f).getD v d = d :=
  List.getD_eq_default _ _ (by simpa using h)

/-- C1: on a `current` bitmap with exactly `k` set bits,
`frontier_update_list_gpu` writes exactly `k` distinct vertex ids into the
dense list, each listed id has its bit set in `current`, the global counter
(reset to zero before the kernel) ends equal to `k`, and repeating the call
on the unmutated bitmap yields the same count and the same set of ids. -/
theorem C1_frontier_build_list (st : frontier_state_t) (k : Nat)
    (hk : st.current.count true = k) :
    (frontier_update_list_gpu st).list.length = k ∧
    (frontier_update_list_gpu st).list.Nodup ∧
    (∀ v ∈ (frontier_update_list_gpu st).list,
      bitmap_get st.current v = true ∧ v < st.current.length) ∧
    (frontier_update_list_gpu st).count = k ∧
    (frontier_update_list_gpu (frontier_update_list_gpu st)).count =
      (frontier_update_list_gpu st).count ∧
    ∀ v, v ∈ (frontier_update_list_gpu (frontier_update_list_gpu st)).list ↔
      v ∈ (frontier_update_list_gpu st).list := by
  have hlist : (frontier_update_list_gpu st).list = frontier_build_kernel_ids st.current :=
    rfl
  have hcount : (frontier_update_list_gpu st).count =
      (frontier_build_kernel_ids st.current).length := Nat.zero_add _
  refine ⟨?_, ?_, ?_, ?_, ?_, ?_⟩
  · rw [hlist, build_ids_length, hk]
  · rw [hlist]
    exact build_ids_nodup _
  · intro v hv
    rw [hlist] at hv
    rcases (mem_build_ids _ _).mp hv with ⟨h1, h2⟩
    exact ⟨h2, h1⟩
  · rw [hcount, build_ids_length, hk]
  · rfl
  · intro v
    exact Iff.rfl

def c1_state : frontier_state_t :=
  ⟨4, [true, false, true, true], [false, false, false, false], [], 7, fun _ => 0⟩

theorem C1_frontier_build_list_witness :
    c1_state.current.count true = 3 ∧
    ((frontier_update_list_gpu c1_state).list.length = 3 ∧
    (frontier_update_list_gpu c1_state).list.Nodup ∧
    (∀ v ∈ (frontier_update_list_gpu c1_state).list,
      bitmap_get c1_state.current v = true ∧ v < c1_state.current.length) ∧
    (frontier_update_list_gpu c1_state).count = 3 ∧
    (frontier_update_list_gpu (frontier_update_list_gpu c1_state)).count =
      (frontier_update_list_gpu c1_state).count ∧
    ∀ v, v ∈ (frontier_update_list_gpu (frontier_update_list_gpu c1_state)).list ↔
      v ∈ (frontier_update_list_gpu c1_state).list) :=
  ⟨by decide, C1_frontier_build_list c1_state 3 (by decide)⟩

/-- Modelled from the spec: `bitmap_diff_copy_cpu` / `bitmap_diff_copy_gpu`
are bit-level bitmap primitives that are not part of the repository sources
(the spec treats set/test/diff primitives on bitmaps as external
collaborators).  Following the spec's words for
`bitmap_diff_copy(visited, diff, copy, len)`: the `diff` buffer — which
after the pointer swap in `frontier_update_bitmap_*` holds the previous
level's visited snapshot — is recomputed as
`visited[v] AND NOT previous-snapshot[v]`, and `visited` is copied into the
`copy` buffer as the snapshot for the next level.  Returns the pair
(new diff contents, new copy contents). -/
def bitmap_diff_copy (visited diff copy : List Bool) : List Bool × List Bool :=
  ((List.range diff.length).map (fun v => bitmap_get visited v && !(bitmap_get diff v)),
    visited)

/-- `frontier_update_bitmap_cpu`: swap the `current` and `visited_last`
buffers by pointer exchange (`tmp = current; current = visited_last;
visited_last = tmp`; no data copy), then
`bitmap_diff_copy_cpu(visited, current, visited_last, len)`. -/
def frontier_update_bitmap_cpu (st : frontier_state_t) (visited : List Bool) :
    frontier_state_t :=
  let tmp := st.current
  let cur := st.visited_last
  let lst := tmp
  let r := bitmap_diff_copy visited cur lst
  { st with current := r.1, visited_last := r.2 }

/-- `frontier_update_bitmap_gpu`: the same buffer pointer exchange followed
by `bitmap_diff_copy_gpu(visited, current, visited_last, len)` on the
partition's stream. -/
def frontier_update_bitmap_gpu (st : frontier_state_t) (visited : List Bool) :
    frontier_state_t :=
  let tmp := st.current
  let cur := st.visited_last
  let lst := tmp
  let r := bitmap_diff_copy visited cur lst
  { st with current := r.1, visited_last := r.2 }

theorem update_bitmap_current_eval (st : frontier_state_t) (visited : List Bool)
    (v : Nat) (h : v < st.visited_last.length) :
    bitmap_get (frontier_update_bitmap_cpu st visited).current v =
      (bitmap_get visited v && !(bitmap_get st.visited_last v)) := by
  unfold frontier_update_bitmap_cpu bitmap_diff_copy
  exact getD_map_range _ _ _ _ h

theorem update_bitmap_visited_last (st : frontier_state_t) (visited : List Bool) :
    (frontier_update_bitmap_cpu st visited).visited_last = visited := rfl

/-- C2: calling `update_bitmap` twice with the same unchanged `visited`
bitmap leaves every bit of `current` zero after the second call; each call
exchanges the two buffers and recomputes
`current[v] = visited[v] AND NOT visited_last[v]` against the previous
snapshot, which it replaces by `visited`.  The CPU and GPU variants agree. -/
theorem C2_update_bitmap_twice (st : frontier_state_t) (visited : List Bool)
    (hl : st.visited_last.length = st.len) (hv : visited.length = st.len) :
    (∀ v, bitmap_get
      (frontier_update_bitmap_cpu (frontier_update_bitmap_cpu st visited) visited).current
        v = false) ∧
    (∀ v < st.len, bitmap_get (frontier_update_bitmap_cpu st visited).current v =
      (bitmap_get visited v && !(bitmap_get st.visited_last v))) ∧
    (frontier_update_bitmap_cpu st visited).visited_last = visited ∧
    frontier_update_bitmap_gpu st visited = frontier_update_bitmap_cpu st visited ∧
    frontier_update_bitmap_gpu (frontier_update_bitmap_gpu st visited) visited =
      frontier_update_bitmap_cpu (frontier_update_bitmap_cpu st visited) visited := by
  refine ⟨?_, ?_, rfl, rfl, rfl⟩
  · intro v
    by_cases hvl : v < (frontier_update_bitmap_cpu st visited).visited_last.length
    · rw [update_bitmap_current_eval _ _ _ hvl, update_bitmap_visited_last]
      cases bitmap_get visited v <;> simp
    · unfold frontier_update_bitmap_cpu bitmap_diff_copy bitmap_get
      rw [List.getD_eq_default]
      simp only [List.length_map, List.length_range]
      exact le_of_not_lt hvl
  · intro v hvlt
    exact update_bitmap_current_eval st visited v (by rw [hl]; exact hvlt)

def c2_state : frontier_state_t :=
  ⟨3, [true, false, false], [false, true, false], [], 0, fun _ => 0⟩

theorem C2_update_bitmap_twice_witness :
    c2_state.visited_last.length = c2_state.len ∧
    ([true, true, false] : List Bool).length = c2_state.len ∧
    ((∀ v, bitmap_get
      (frontier_update_bitmap_cpu (frontier_update_bitmap_cpu c2_state [true, true, false])
        [true, true, false]).current v = false) ∧
    (∀ v < c2_state.len,
      bitmap_get (frontier_update_bitmap_cpu c2_state [true, true, false]).current v =
      (bitmap_get [true, true, false] v && !(bitmap_get c2_state.visited_last v))) ∧
    (frontier_update_bitmap_cpu c2_state [true, true, false]).visited_last =
      [true, true, false] ∧
    frontier_update_bitmap_gpu c2_state [true, true, false] =
      frontier_update_bitmap_cpu c2_state [true, true, false] ∧
    frontier_update_bitmap_gpu (frontier_update_bitmap_gpu c2_state [true, true, false])
        [true, true, false] =
      frontier_update_bitmap_cpu (frontier_update_bitmap_cpu c2_state [true, true, false])
        [true, true, false]) :=
  ⟨by decide, by decide, C2_update_bitmap_twice c2_state [true, true, false] (by decide)
    (by decide)⟩

/-! ## Frontier subsystem: degree boundaries -/

/-- `FRONTIER_BOUNDARY_COUNT`: the number of recorded degree boundaries; the
boundaries array has `FRONTIER_BOUNDARY_COUNT + 1` entries.  Modelled from
the spec: the constant's definition is not under the repository sources; the
update kernel writes the six entries `state.boundaries[1..6]` and the spec's
seven degree ranges are delimited by `6 + 1` entries. -/
def FRONTIER_BOUNDARY_COUNT : Nat := 6

/-- Out-degree of vertex `v` as the boundary kernel computes it:
`vertices[v + 1] - vertices[v]` (unsigned arithmetic). -/
def nbr_count_of (vertices : List Nat) (v : Nat) : Nat :=
  vertices.getD (v + 1) 0 - vertices.getD v 0

/-- `frontier_init_boundaries_kernel`: one thread per boundary performs
`state.boundaries[index + 1] = *state.count`. -/
def frontier_init_boundaries_kernel (st : frontier_state_t) : frontier_state_t :=
  let bs := (List.range FRONTIER_BOUNDARY_COUNT).foldl
    (fun bs index => store_set bs (index + 1) st.count) st.boundaries
  { st with boundaries := bs }

/-- One thread of `frontier_update_boundaries_kernel`: reads
`v = frontier[index]` and `nbr_count = vertices[v+1] - vertices[v]`, then
performs one conditional `atomicMin` per degree range on
`boundaries = &state.boundaries[1]`. -/
def frontier_update_boundaries_thread (list vertices : List Nat)
    (bs : Nat → Nat) (index : Nat) : Nat → Nat :=
  let v := list.getD index 0
  let nc := nbr_count_of vertices v
  let bs := if 7 < nc ∧ nc < 32 then store_set bs 1 (min (bs 1) index) else bs
  let bs := if 31 < nc ∧ nc < 128 then store_set bs 2 (min (bs 2) index) else bs
  let bs := if 127 < nc ∧ nc < 256 then store_set bs 3 (min (bs 3) index) else bs
  let bs := if 255 < nc ∧ nc < 1024 then store_set bs 4 (min (bs 4) index) else bs
  let bs := if 1023 < nc ∧ nc < 2 * 1024 then store_set bs 5 (min (bs 5) index) else bs
  let bs := if 2 * 1024 ≤ nc then store_set bs 6 (min (bs 6) index) else bs
  bs

/-- `frontier_update_boundaries_kernel`: one thread per dense-list index
below `*state.count`. -/
def frontier_update_boundaries_kernel (st : frontier_state_t) (vertices : List Nat) :
    frontier_state_t :=
  let bs := (List.range st.count).foldl
    (frontier_update_boundaries_thread st.list vertices) st.boundaries
  { st with boundaries := bs }

/-- `frontier_update_boundaries_gpu`: when `engine_sorted()` holds, launch
the init kernel and then, through
`frontier_update_boundaries_launch_kernel` (a no-op when
`*state.count == 0`, exactly like the empty fold), the update kernel. -/
def frontier_update_boundaries_gpu (st : frontier_state_t) (vertices : List Nat)
    (engine_sorted : Bool) : frontier_state_t :=
  if engine_sorted then
    frontier_update_boundaries_kernel (frontier_init_boundaries_kernel st) vertices
  else st

/-- Membership of a degree in recorded bucket `j` (`j = 1..6`), matching the
update kernel's six conditions. -/
def in_bucket (nc : Nat) (j : Nat) : Bool :=
  match j with
  | 1 => decide (7 < nc) && decide (nc < 32)
  | 2 => decide (31 < nc) && decide (nc < 128)
  | 3 => decide (127 < nc) && decide (nc < 256)
  | 4 => decide (255 < nc) && decide (nc < 1024)
  | 5 => decide (1023 < nc) && decide (nc < 2 * 1024)
  | 6 => decide (2 * 1024 ≤ nc)
  | _ => false

/-- Membership of a degree in one of the spec's seven buckets
{1–7, 8–31, 32–127, 128–255, 256–1023, 1024–2047, ≥2048}, indexed `0..6`. -/
def in_bucket7 (nc : Nat) (j : Nat) : Bool :=
  if j = 0 then decide (1 ≤ nc) && decide (nc ≤ 7) else in_bucket nc j

theorem ite_set_read_ne (c : Prop) [Decidable c] (b : Nat → Nat) (i v j : Nat)
    (h : j ≠ i) : (if c then store_set b i v else b) j = b j := by
  split_ifs with hc
  · exact store_set_ne _ _ _ h
  · rfl

theorem ite_set_read_eq (c : Prop) [Decidable c] (b : Nat → Nat) (i v : Nat) :
    (if c then store_set b i v else b) i = if c then v else b i := by
  split_ifs with hc
  · exact store_set_eq _ _ _
  · rfl

theorem update_thread_eval (list vertices : List Nat) (bs : Nat → Nat) (index j : Nat) :
    frontier_update_boundaries_thread list vertices bs index j =
      if 1 ≤ j ∧ j ≤ 6 ∧
          in_bucket (nbr_count_of vertices (list.getD index 0)) j = true
      then min (bs j) index else bs j := by
  simp only [frontier_update_boundaries_thread]
  by_cases h6 : 1 ≤ j ∧ j ≤ 6
  · obtain ⟨h1, h2⟩ := h6
    interval_cases j <;>
      simp [ite_set_read_ne, ite_set_read_eq, in_bucket]
  · rw [ite_set_read_ne _ _ _ _ _ (show j ≠ 6 by omega),
      ite_set_read_ne _ _ _ _ _ (show j ≠ 5 by omega),
      ite_set_read_ne _ _ _ _ _ (show j ≠ 4 by omega),
      ite_set_read_ne _ _ _ _ _ (show j ≠ 3 by omega),
      ite_set_read_ne _ _ _ _ _ (show j ≠ 2 by omega),
      ite_set_read_ne _ _ _ _ _ (show j ≠ 1 by omega),
      if_neg (fun h => h6 ⟨h.1, h.2.1⟩)]

theorem init_boundaries_eval (st : frontier_state_t) (j : Nat) :
    (frontier_init_boundaries_kernel st).boundaries j =
      if 1 ≤ j ∧ j ≤ 6 then st.count else st.boundaries j := by
  have h := foldl_range_inv FRONTIER_BOUNDARY_COUNT
    (fun bs index => store_set bs (index + 1) st.count)
    (fun m bs => ∀ i, bs i = if 1 ≤ i ∧ i ≤ m then st.count else st.boundaries i)
    st.boundaries (by intro i; rw [if_neg (by omega)]) ?_
  · exact h j
  · intro m bs hm hp i
    have hb : (fun bs index => store_set bs (index + 1) st.count) bs m =
        store_set bs (m + 1) st.count := rfl
    rw [hb]
    by_cases hi : i = m + 1
    · subst hi
      rw [store_set_eq]
      simp only [if_pos (by omega : 1 ≤ m + 1 ∧ m + 1 ≤ m + 1)]
    · rw [store_set_ne _ _ _ hi, hp i]
      by_cases h1 : 1 ≤ i ∧ i ≤ m
      · rw [if_pos h1, if_pos (by omega : 1 ≤ i ∧ i ≤ m + 1)]
      · rw [if_neg h1, if_neg (by omega : ¬(1 ≤ i ∧ i ≤ m + 1))]

theorem update_boundaries_eval (st : frontier_state_t) (vertices : List Nat) (j : Nat) :
    (frontier_update_boundaries_kernel st vertices).boundaries j =
      if 1 ≤ j ∧ j ≤ 6 then
        (List.range st.count).foldl (fun acc index =>
          if in_bucket (nbr_count_of vertices (st.list.getD index 0)) j = true
          then min acc index else acc) (st.boundaries j)
      else st.boundaries j := by
  have h := foldl_range_inv st.count
    (frontier_update_boundaries_thread st.list vertices)
    (fun m bs => ∀ i, bs i =
      if 1 ≤ i ∧ i ≤ 6 then
        (List.range m).foldl (fun acc index =>
          if in_bucket (nbr_count_of vertices (st.list.getD index 0)) i = true
          then min acc index else acc) (st.boundaries i)
      else st.boundaries i)
    st.boundaries (by intro i; simp) ?_
  · exact h j
  · intro m bs hm hp i
    rw [update_thread_eval, hp i, List.range_succ, List.foldl_append]
    by_cases h1 : 1 ≤ i ∧ i ≤ 6
    · simp only [if_pos h1, List.foldl_cons, List.foldl_nil]
      by_cases hb : in_bucket (nbr_count_of vertices (st.list.getD m 0)) i = true
      · rw [if_pos ⟨h1.1, h1.2, hb⟩, if_pos hb]
      · rw [if_neg (by tauto), if_neg hb]
    · simp only [if_neg h1]
      rw [if_neg (by tauto)]

theorem fold_min_char (p : Nat → Bool) (cnt : Nat) :
    ((∀ i < cnt, p i = false) ∧
      (List.range cnt).foldl (fun acc i => if p i = true then min acc i else acc) cnt = cnt) ∨
    ((List.range cnt).foldl (fun acc i => if p i = true then min acc i else acc) cnt < cnt ∧
      p ((List.range cnt).foldl (fun acc i => if p i = true then min acc i else acc) cnt) =
        true ∧
      ∀ i < cnt, p i = true →
        (List.range cnt).foldl (fun acc i => if p i = true then min acc i else acc) cnt ≤ i)
    := by
  have h := foldl_range_inv cnt (fun acc i => if p i = true then min acc i else acc)
    (fun m acc => ((∀ i < m, p i = false) ∧ acc = cnt) ∨
      (acc < m ∧ acc < cnt ∧ p acc = true ∧ ∀ i < m, p i = true → acc ≤ i))
    cnt (Or.inl ⟨by omega, rfl⟩) ?_
  · rcases h with ⟨h1, h2⟩ | ⟨h1, h2, h3, h4⟩
    · exact Or.inl ⟨h1, h2⟩
    · exact Or.inr ⟨h2, h3, h4⟩
  · intro m acc hm hp
    have hstep : (fun acc i => if p i = true then min acc i else acc) acc m =
        if p m = true then min acc m else acc := rfl
    rw [hstep]
    by_cases hpm : p m = true
    · rw [if_pos hpm]
      rcases hp with ⟨h1, h2⟩ | ⟨h1, h2, h3, h4⟩
      · subst h2
        refine Or.inr ⟨?_, ?_, ?_, ?_⟩
        · omega
        · omega
        · rw [Nat.min_eq_right (by omega), hpm]
        · intro i hi hpi
          have : i = m := by
            by_contra hne
            exact absurd (h1 i (by omega)) (by rw [hpi]; simp)
          omega
      · rw [Nat.min_eq_left (by omega)]
        exact Or.inr ⟨by omega, h2, h3, fun i hi hpi => by
          by_cases him : i = m
          · omega
          · exact h4 i (by omega) hpi⟩
    · rw [if_neg hpm]
      rcases hp with ⟨h1, h2⟩ | ⟨h1, h2, h3, h4⟩
      · refine Or.inl ⟨?_, h2⟩
        intro i hi
        by_cases him : i = m
        · subst him
          exact Bool.not_eq_true _ ▸ (by simpa using hpm)
        · exact h1 i (by omega)
      · exact Or.inr ⟨by omega, h2, h3, fun i hi hpi => by
          by_cases him : i = m
          · subst him
            exact absurd hpi hpm
          · exact h4 i (by omega) hpi⟩

theorem update_list_count_eq (st : frontier_state_t) :
    (frontier_update_list_gpu st).count = (frontier_update_list_gpu st).list.length :=
  Nat.zero_add _

/-- Characterization of the boundaries array after
`frontier_update_boundaries_gpu` under `engine_sorted()`: entry `0` is left
untouched, and each recorded entry `j ∈ [1,6]` holds the least dense-list
index whose vertex degree falls in range `j`, or the list count when the
range holds no frontier vertex. -/
theorem boundaries_char (st : frontier_state_t) (vertices : List Nat) :
    ((frontier_update_boundaries_gpu st vertices true).boundaries 0 = st.boundaries 0) ∧
    ∀ j, 1 ≤ j → j ≤ 6 →
      ((∀ i < st.count, in_bucket (nbr_count_of vertices (st.list.getD i 0)) j = false) ∧
        (frontier_update_boundaries_gpu st vertices true).boundaries j = st.count) ∨
      ((frontier_update_boundaries_gpu st vertices true).boundaries j < st.count ∧
        in_bucket (nbr_count_of vertices
          (st.list.getD ((frontier_update_boundaries_gpu st vertices true).boundaries j)
            0)) j = true ∧
        ∀ i < st.count, in_bucket (nbr_count_of vertices (st.list.getD i 0)) j = true →
          (frontier_update_boundaries_gpu st vertices true).boundaries j ≤ i) := by
  have hg : frontier_update_boundaries_gpu st vertices true =
      frontier_update_boundaries_kernel (frontier_init_boundaries_kernel st) vertices :=
    rfl
  have hcnt : (frontier_init_boundaries_kernel st).count = st.count := rfl
  have hlst : (frontier_init_boundaries_kernel st).list = st.list := rfl
  constructor
  · rw [hg, update_boundaries_eval, if_neg (by omega), init_boundaries_eval,
      if_neg (by omega)]
  · intro j h1 h6
    rw [hg, update_boundaries_eval, hcnt, hlst, if_pos ⟨h1, h6⟩, init_boundaries_eval,
      if_pos ⟨h1, h6⟩]
    exact fold_min_char
      (fun i => in_bucket (nbr_count_of vertices (st.list.getD i 0)) j) st.count

/-- C3 (amended): after `update_boundaries` on a non-empty dense list built
over a degree-sorted graph, each of the six recorded buckets
{8–31, 32–127, 128–255, 256–1023, 1024–2047, ≥2048} — held in
`state.boundaries[1..6]` — records the minimum dense-list index whose
vertex's out-degree falls in the bucket's range, or the total list count if
the bucket holds no frontier vertex; the first bucket (degrees ≤ 7) has no
recorded entry: `state.boundaries[0]` is left at its prior (zeroed) value. -/
theorem C3_update_boundaries (st : frontier_state_t) (vertices : List Nat)
    (hne : st.current.count true ≠ 0)
    (hsorted : ∀ v < st.current.length, ∀ u, u ≤ v →
      nbr_count_of vertices u ≤ nbr_count_of vertices v) :
    ((frontier_update_boundaries_gpu (frontier_update_list_gpu st) vertices
        true).boundaries 0 = st.boundaries 0) ∧
    ∀ j, 1 ≤ j → j ≤ 6 →
      ((∀ i < (frontier_update_list_gpu st).count,
          in_bucket (nbr_count_of vertices
            ((frontier_update_list_gpu st).list.getD i 0)) j = false) ∧
        (frontier_update_boundaries_gpu (frontier_update_list_gpu st) vertices
          true).boundaries j = (frontier_update_list_gpu st).count) ∨
      ((frontier_update_boundaries_gpu (frontier_update_list_gpu st) vertices
          true).boundaries j < (frontier_update_list_gpu st).count ∧
        in_bucket (nbr_count_of vertices
          ((frontier_update_list_gpu st).list.getD
            ((frontier_update_boundaries_gpu (frontier_update_list_gpu st) vertices
              true).boundaries j) 0)) j = true ∧
        ∀ i < (frontier_update_list_gpu st).count,
          in_bucket (nbr_count_of vertices
            ((frontier_update_list_gpu st).list.getD i 0)) j = true →
          (frontier_update_boundaries_gpu (frontier_update_list_gpu st) vertices
            true).boundaries j ≤ i) :=
  boundaries_char (frontier_update_list_gpu st) vertices

theorem build_ids_getD_mono (b : List Bool) {i1 i2 : Nat} (h : i1 ≤ i2)
    (h2 : i2 < (frontier_build_kernel_ids b).length) :
    (frontier_build_kernel_ids b).getD i1 0 ≤ (frontier_build_kernel_ids b).getD i2 0 := by
  rcases Nat.lt_or_ge i1 i2 with hlt | hge
  · have hp : (frontier_build_kernel_ids b).Pairwise (· < ·) := by
      rw [build_ids_eq_filter]
      exact (List.pairwise_lt_range _).sublist (List.filter_sublist _)
    have h1 : i1 < (frontier_build_kernel_ids b).length := lt_of_le_of_lt h h2
    rw [List.getD_eq_getElem _ _ h1, List.getD_eq_getElem _ _ h2]
    exact le_of_lt (List.pairwise_iff_getElem.mp hp i1 i2 h1 h2 hlt)
  · have hii : i1 = i2 := le_antisymm h hge
    rw [hii]

theorem build_ids_getD_lt_len (b : List Bool) {i : Nat}
    (h : i < (frontier_build_kernel_ids b).length) :
    (frontier_build_kernel_ids b).getD i 0 < b.length := by
  rw [List.getD_eq_getElem _ _ h]
  exact ((mem_build_ids b _).mp (List.getElem_mem h)).1

theorem in_bucket_separated {d1 d2 j1 j2 : Nat} (hj1 : 1 ≤ j1) (hjj : j1 < j2)
    (hj2 : j2 ≤ 6) (hb1 : in_bucket d1 j1 = true) (hb2 : in_bucket d2 j2 = true) :
    d1 < d2 := by
  have hj1' : j1 ≤ 6 := by omega
  interval_cases j1 <;> interval_cases j2 <;>
    simp only [in_bucket, Bool.and_eq_true, decide_eq_true_eq] at hb1 hb2 <;> omega

/-- C4 (amended): for a frontier built by `build_list` over a globally
degree-sorted vertex ordering and processed by `update_boundaries`, the
recorded bucket start offsets are non-decreasing in bucket index across
buckets that contain at least one frontier vertex (and `boundaries[0]`,
which stays zero, is below them all); a bucket containing no frontier
vertex records the total list count instead, which can exceed the offset
recorded for a later non-empty bucket. -/
theorem C4_boundaries_sorted_monotone (st : frontier_state_t) (vertices : List Nat)
    (hne : st.current.count true ≠ 0)
    (hb0 : st.boundaries 0 = 0)
    (hsorted : ∀ v < st.current.length, ∀ u, u ≤ v →
      nbr_count_of vertices u ≤ nbr_count_of vertices v) :
    (∀ j1 j2, 1 ≤ j1 → j1 ≤ j2 → j2 ≤ 6 →
      (∃ i, i < (frontier_update_list_gpu st).count ∧
        in_bucket (nbr_count_of vertices
          ((frontier_update_list_gpu st).list.getD i 0)) j1 = true) →
      (∃ i, i < (frontier_update_list_gpu st).count ∧
        in_bucket (nbr_count_of vertices
          ((frontier_update_list_gpu st).list.getD i 0)) j2 = true) →
      (frontier_update_boundaries_gpu (frontier_update_list_gpu st) vertices
        true).boundaries j1 ≤
      (frontier_update_boundaries_gpu (frontier_update_list_gpu st) vertices
        true).boundaries j2) ∧
    (∀ j, j ≤ 6 →
      (frontier_update_boundaries_gpu (frontier_update_list_gpu st) vertices
        true).boundaries 0 ≤
      (frontier_update_boundaries_gpu (frontier_update_list_gpu st) vertices
        true).boundaries j) := by
  have hchar := boundaries_char (frontier_update_list_gpu st) vertices
  have hz : (frontier_update_boundaries_gpu (frontier_update_list_gpu st) vertices
      true).boundaries 0 = 0 := hchar.1.trans hb0
  constructor
  · intro j1 j2 hj1 hj12 hj2 hex1 hex2
    rcases hchar.2 j1 hj1 (le_trans hj12 hj2) with ⟨hall, _⟩ | ⟨hlt1, hin1, hmin1⟩
    · rcases hex1 with ⟨i, hi, hbi⟩
      rw [hall i hi] at hbi
      cases hbi
    rcases hchar.2 j2 (by omega) hj2 with ⟨hall, _⟩ | ⟨hlt2, hin2, hmin2⟩
    · rcases hex2 with ⟨i, hi, hbi⟩
      rw [hall i hi] at hbi
      cases hbi
    rcases Nat.eq_or_lt_of_le hj12 with heq | hjj
    · rw [heq]
    by_contra hcon
    have hm2m1 : (frontier_update_boundaries_gpu (frontier_update_list_gpu st) vertices
        true).boundaries j2 <
        (frontier_update_boundaries_gpu (frontier_update_list_gpu st) vertices
        true).boundaries j1 := by omega
    have hlen : (frontier_update_list_gpu st).count =
        (frontier_build_kernel_ids st.current).length := update_list_count_eq st
    have hid_mono : (frontier_update_list_gpu st).list.getD
        ((frontier_update_boundaries_gpu (frontier_update_list_gpu st) vertices
          true).boundaries j2) 0 ≤
        (frontier_update_list_gpu st).list.getD
        ((frontier_update_boundaries_gpu (frontier_update_list_gpu st) vertices
          true).boundaries j1) 0 :=
      build_ids_getD_mono st.current (le_of_lt hm2m1) (by omega)
    have hid1_lt : (frontier_update_list_gpu st).list.getD
        ((frontier_update_boundaries_gpu (frontier_update_list_gpu st) vertices
          true).boundaries j1) 0 < st.current.length :=
      build_ids_getD_lt_len st.current (by omega)
    have hdeg := hsorted _ hid1_lt _ hid_mono
    have hsep := in_bucket_separated hj1 hjj hj2 hin1 hin2
    omega
  · intro j hj
    rw [hz]
    exact Nat.zero_le _

def c3_state : frontier_state_t := ⟨1, [true], [false], [], 5, fun _ => 0⟩

/-- C3 counterexample: a one-vertex frontier (trivially degree-sorted, list
non-empty) whose single vertex has out-degree 10.  The spec's first bucket
(degrees 1–7) holds no frontier vertex, so by the claim its recorded value
should be the list count 1; the code never writes `state.boundaries[0]`,
which stays 0. -/
theorem C3_counterexample :
    c3_state.current.count true ≠ 0 ∧
    (∀ v < c3_state.current.length, ∀ u, u ≤ v →
      nbr_count_of [0, 10] u ≤ nbr_count_of [0, 10] v) ∧
    ¬ (∀ j < 7,
      (frontier_update_boundaries_gpu (frontier_update_list_gpu c3_state) [0, 10]
        true).boundaries j =
      ((List.range (frontier_update_list_gpu c3_state).count).filter (fun i =>
          in_bucket7 (nbr_count_of [0, 10]
            ((frontier_update_list_gpu c3_state).list.getD i 0)) j)).headD
        (frontier_update_list_gpu c3_state).count) := by
  refine ⟨by decide, by decide, fun h => ?_⟩
  have h0 := h 0 (by omega)
  revert h0
  decide

def c3_wit_state : frontier_state_t := ⟨2, [true, true], [false, false], [], 3, fun _ => 0⟩

theorem C3_update_boundaries_witness :
    c3_wit_state.current.count true ≠ 0 ∧
    (∀ v < c3_wit_state.current.length, ∀ u, u ≤ v →
      nbr_count_of [0, 1, 9] u ≤ nbr_count_of [0, 1, 9] v) ∧
    (((frontier_update_boundaries_gpu (frontier_update_list_gpu c3_wit_state) [0, 1, 9]
        true).boundaries 0 = c3_wit_state.boundaries 0) ∧
    ∀ j, 1 ≤ j → j ≤ 6 →
      ((∀ i < (frontier_update_list_gpu c3_wit_state).count,
          in_bucket (nbr_count_of [0, 1, 9]
            ((frontier_update_list_gpu c3_wit_state).list.getD i 0)) j = false) ∧
        (frontier_update_boundaries_gpu (frontier_update_list_gpu c3_wit_state) [0, 1, 9]
          true).boundaries j = (frontier_update_list_gpu c3_wit_state).count) ∨
      ((frontier_update_boundaries_gpu (frontier_update_list_gpu c3_wit_state) [0, 1, 9]
          true).boundaries j < (frontier_update_list_gpu c3_wit_state).count ∧
        in_bucket (nbr_count_of [0, 1, 9]
          ((frontier_update_list_gpu c3_wit_state).list.getD
            ((frontier_update_boundaries_gpu (frontier_update_list_gpu c3_wit_state)
              [0, 1, 9] true).boundaries j) 0)) j = true ∧
        ∀ i < (frontier_update_list_gpu c3_wit_state).count,
          in_bucket (nbr_count_of [0, 1, 9]
            ((frontier_update_list_gpu c3_wit_state).list.getD i 0)) j = true →
          (frontier_update_boundaries_gpu (frontier_update_list_gpu c3_wit_state)
            [0, 1, 9] true).boundaries j ≤ i)) :=
  ⟨by decide, by decide,
    C3_update_boundaries c3_wit_state [0, 1, 9] (by decide) (by decide)⟩

def c4_state : frontier_state_t := ⟨1, [true], [false], [], 5, fun _ => 0⟩

/-- C4 counterexample: a one-vertex frontier (trivially degree-sorted, list
non-empty, `boundaries[0] = 0`) whose single vertex has out-degree 2048.
Only the last bucket (≥2048) is non-empty, so `state.boundaries[6] = 0`
while the empty bucket before it records the count:
`state.boundaries[5] = 1 > 0`; the claimed adjacent monotonicity
`boundaries[i] ≤ boundaries[i+1]` fails at `i = 5`. -/
theorem C4_counterexample :
    c4_state.current.count true ≠ 0 ∧
    c4_state.boundaries 0 = 0 ∧
    (∀ v < c4_state.current.length, ∀ u, u ≤ v →
      nbr_count_of [0, 2048] u ≤ nbr_count_of [0, 2048] v) ∧
    ¬ (∀ i < 6,
      (frontier_update_boundaries_gpu (frontier_update_list_gpu c4_state) [0, 2048]
        true).boundaries i ≤
      (frontier_update_boundaries_gpu (frontier_update_list_gpu c4_state) [0, 2048]
        true).boundaries (i + 1)) := by
  refine ⟨by decide, by decide, by decide, fun h => ?_⟩
  have h5 := h 5 (by omega)
  revert h5
  decide

def c4_wit_state : frontier_state_t := ⟨2, [true, true], [false, false], [], 9, fun _ => 0⟩

theorem C4_boundaries_sorted_monotone_witness :
    c4_wit_state.current.count true ≠ 0 ∧
    c4_wit_state.boundaries 0 = 0 ∧
    (∀ v < c4_wit_state.current.length, ∀ u, u ≤ v →
      nbr_count_of [0, 1, 9] u ≤ nbr_count_of [0, 1, 9] v) ∧
    ((∀ j1 j2, 1 ≤ j1 → j1 ≤ j2 → j2 ≤ 6 →
      (∃ i, i < (frontier_update_list_gpu c4_wit_state).count ∧
        in_bucket (nbr_count_of [0, 1, 9]
          ((frontier_update_list_gpu c4_wit_state).list.getD i 0)) j1 = true) →
      (∃ i, i < (frontier_update_list_gpu c4_wit_state).count ∧
        in_bucket (nbr_count_of [0, 1, 9]
          ((frontier_update_list_gpu c4_wit_state).list.getD i 0)) j2 = true) →
      (frontier_update_boundaries_gpu (frontier_update_list_gpu c4_wit_state) [0, 1, 9]
        true).boundaries j1 ≤
      (frontier_update_boundaries_gpu (frontier_update_list_gpu c4_wit_state) [0, 1, 9]
        true).boundaries j2) ∧
    (∀ j, j ≤ 6 →
      (frontier_update_boundaries_gpu (frontier_update_list_gpu c4_wit_state) [0, 1, 9]
        true).boundaries 0 ≤
      (frontier_update_boundaries_gpu (frontier_update_list_gpu c4_wit_state) [0, 1, 9]
        true).boundaries j)) :=
  ⟨by decide, by decide, by decide,
    C4_boundaries_sorted_monotone c4_wit_state [0, 1, 9] (by decide) (by decide)
      (by decide)⟩

/-! ## Engine: destination-slot resolution (`ENGINE_FETCH_DST`) -/

/-- Modelled from the spec: a neighbor reference is a
(owning partition id, local vertex id) pair; the packed-id accessor macros
`GET_PARTITION_ID` / `GET_VERTEX_ID` are not under the repository sources. -/
structure nbr_t where
  pid : Nat
  vid : Nat

def GET_PARTITION_ID (nbr : nbr_t) : Nat := nbr.pid

def GET_VERTEX_ID (nbr : nbr_t) : Nat := nbr.vid

/-- Modelled from the spec: `GROOVES_BOX_INDEX` is not under the repository
sources; each partition keeps one outbox per peer partition, so the ordered
pair (current partition `pid` → remote partition `rmt_pid`) selects a unique
box, compactly indexed among the `pcount - 1` peers of `pid`. -/
def GROOVES_BOX_INDEX (rmt_pid pid pcount : Nat) : Nat :=
  if pid < rmt_pid then rmt_pid - 1 else rmt_pid

/-- The writable destination resolved by `ENGINE_FETCH_DST`: either a slot
of the partition's own state array `pstate`, or a slot of the values array
of one outbox. -/
inductive dst_slot where
  | pstate (vid : Nat)
  | outbox (box_id : Nat) (vid : Nat)
deriving DecidableEq

/-- `ENGINE_FETCH_DST(_pid, _nbr, _outbox, _pstate, _pcount, _dst, _type)`:
if the neighbor's partition differs from `_pid`, `_dst` points into the
values array of outbox `GROOVES_BOX_INDEX(nbr_pid, _pid, _pcount)` at entry
`GET_VERTEX_ID(_nbr)`; otherwise it points at
`_pstate[GET_VERTEX_ID(_nbr)]`.  No allocation is performed. -/
def ENGINE_FETCH_DST (pid : Nat) (nbr : nbr_t) (pcount : Nat) : dst_slot :=
  let nbr_pid := GET_PARTITION_ID nbr
  if nbr_pid ≠ pid then
    dst_slot.outbox (GROOVES_BOX_INDEX nbr_pid pid pcount) (GET_VERTEX_ID nbr)
  else
    dst_slot.pstate (GET_VERTEX_ID nbr)

/-- C5: destination-slot resolution returns the local state entry at the
neighbor's local id when the neighbor lives in the current partition, and
otherwise the entry at the neighbor's local id in the values array of the
box uniquely associated with the ordered pair
(current partition → neighbor's partition). -/
theorem C5_engine_fetch_dst (pid pcount : Nat) (nbr : nbr_t)
    (hn : nbr.pid < pcount) (hp : pid < pcount) :
    (nbr.pid = pid → ENGINE_FETCH_DST pid nbr pcount = dst_slot.pstate nbr.vid) ∧
    (nbr.pid ≠ pid →
      ENGINE_FETCH_DST pid nbr pcount =
        dst_slot.outbox (GROOVES_BOX_INDEX nbr.pid pid pcount) nbr.vid ∧
      ∀ r1 r2, r1 < pcount → r2 < pcount → r1 ≠ pid → r2 ≠ pid →
        (GROOVES_BOX_INDEX r1 pid pcount = GROOVES_BOX_INDEX r2 pid pcount ↔ r1 = r2)) := by
  constructor
  · intro h
    simp [ENGINE_FETCH_DST, GET_PARTITION_ID, GET_VERTEX_ID, h]
  · intro h
    refine ⟨by simp [ENGINE_FETCH_DST, GET_PARTITION_ID, GET_VERTEX_ID, h], ?_⟩
    intro r1 r2 h1 h2 hn1 hn2
    constructor
    · intro hbox
      unfold GROOVES_BOX_INDEX at hbox
      split_ifs at hbox <;> omega
    · intro hr
      rw [hr]

theorem C5_engine_fetch_dst_witness :
    (⟨2, 4⟩ : nbr_t).pid < 3 ∧ (1 : Nat) < 3 ∧
    (((⟨2, 4⟩ : nbr_t).pid = 1 →
      ENGINE_FETCH_DST 1 ⟨2, 4⟩ 3 = dst_slot.pstate (⟨2, 4⟩ : nbr_t).vid) ∧
    ((⟨2, 4⟩ : nbr_t).pid ≠ 1 →
      ENGINE_FETCH_DST 1 ⟨2, 4⟩ 3 =
        dst_slot.outbox (GROOVES_BOX_INDEX (⟨2, 4⟩ : nbr_t).pid 1 3) (⟨2, 4⟩ : nbr_t).vid ∧
      ∀ r1 r2, r1 < 3 → r2 < 3 → r1 ≠ 1 → r2 ≠ 1 →
        (GROOVES_BOX_INDEX r1 1 3 = GROOVES_BOX_INDEX r2 1 3 ↔ r1 = r2))) :=
  ⟨by decide, by decide, C5_engine_fetch_dst 1 3 ⟨2, 4⟩ (by decide) (by decide)⟩

/-! ## APSP (`src/alg/totem_apsp.cu`): data model and special cases -/

inductive error_t where
  | SUCCESS
  | FAILURE
deriving DecidableEq

/-- Modelled from the spec: `weight_t` and `WEIGHT_MAX` come from headers
outside the repository sources; `WEIGHT_MAX` plays the role of infinity for
unreachable pairs and edge weights are nonnegative, so path weights are
modelled as `ENat` with `WEIGHT_MAX = ⊤`. -/
abbrev weight_t := ENat

def WEIGHT_MAX : weight_t := ⊤

/-- The CSR graph consumed by APSP: `vertices` has `vertex_count + 1` row
offsets, `edges` the destination ids and `weights` the (finite, nonnegative)
edge weights. -/
structure graph_t where
  vertex_count : Nat
  edge_count : Nat
  vertices : List Nat
  edges : List Nat
  weights : List Nat
  weighted : Bool

/-- The edgeless-graph branch of `check_special_cases`: every path length is
initialized to `WEIGHT_MAX` row by row, then the diagonal entry of each row
is set to 0.  `D0` stands for the uninitialized pinned-host allocation. -/
def edgeless_distances (v_count : Nat) (D0 : Nat → weight_t) : Nat → weight_t :=
  (List.range v_count).foldl (fun D src =>
    let D := (List.range v_count).foldl
      (fun D dest => store_set D (src * v_count + dest) WEIGHT_MAX) D
    store_set D (src * v_count + src) 0) D0

/-- `check_special_cases(graph, distances, finished)`: the returned triple is
(error code, `*distances`, `*finished`); a null/unweighted/empty graph fails
with `*distances = NULL`, a single-vertex graph returns the one-entry zero
matrix, an edgeless graph the diagonal matrix, and otherwise
`*finished = false` hands control to the main algorithm. -/
def check_special_cases (D0 : Nat → weight_t) (graph : Option graph_t) :
    error_t × Option (Nat → weight_t) × Bool :=
  match graph with
  | none => (error_t.FAILURE, none, true)
  | some g =>
    if g.weighted = false ∨ g.vertex_count = 0 then (error_t.FAILURE, none, true)
    else if g.vertex_count = 1 then (error_t.SUCCESS, some (store_set D0 0 0), true)
    else if g.edge_count = 0 then
      (error_t.SUCCESS, some (edgeless_distances g.vertex_count D0), true)
    else (error_t.SUCCESS, none, false)

/-- The edge-list initialization of `apsp_cpu`: for each row `src`, set every
entry to `WEIGHT_MAX`, overwrite `base[graph->edges[edge]] = weights[edge]`
for the row's CSR edge range, then set the diagonal `base[src] = 0`. -/
def apsp_init_distances (g : graph_t) (D0 : Nat → weight_t) : Nat → weight_t :=
  (List.range g.vertex_count).foldl (fun D src =>
    let D := (List.range g.vertex_count).foldl
      (fun D dest => store_set D (src * g.vertex_count + dest) WEIGHT_MAX) D
    let estart := g.vertices.getD src 0
    let eend := g.vertices.getD (src + 1) 0
    let D := (List.range' estart (eend - estart)).foldl
      (fun D e => store_set D (src * g.vertex_count + g.edges.getD e 0)
        ((g.weights.getD e 0 : Nat) : weight_t)) D
    store_set D (src * g.vertex_count + src) 0) D0

/-- The Floyd-Warshall main loop of `apsp_cpu`, run `|V|` times: in place,
`base[dest] = min(base[dest], base[mid] + mid_base[dest])`, where `base` is
row `src` and `mid_base` row `mid` of the same flat array (the OpenMP
parallel `src` loop is embedded at its sequential schedule; rows other than
`src` are only read, and the `src = mid` writes rewrite equal values). -/
def apsp_main_loop (g : graph_t) (D0 : Nat → weight_t) : Nat → weight_t :=
  (List.range g.vertex_count).foldl (fun D mid =>
    (List.range g.vertex_count).foldl (fun D src =>
      (List.range g.vertex_count).foldl (fun D dest =>
        store_set D (src * g.vertex_count + dest)
          (min (D (src * g.vertex_count + dest))
            (D (src * g.vertex_count + mid) + D (mid * g.vertex_count + dest)))) D) D) D0

/-- `apsp_cpu(graph, path_ret)` as the pair (return code, `*path_ret`);
`D0` stands for the uninitialized pinned-host allocation.  The inner `none`
branch is unreachable: a null graph is already finished by
`check_special_cases`. -/
def apsp_cpu (graph : Option graph_t) (D0 : Nat → weight_t) :
    error_t × Option (Nat → weight_t) :=
  match check_special_cases D0 graph with
  | (ret_val, d, true) => (ret_val, d)
  | (_, _, false) =>
    match graph with
    | none => (error_t.FAILURE, none)
    | some g => (error_t.SUCCESS, some (apsp_main_loop g (apsp_init_distances g D0)))

/-- `apsp_gpu(graph, path_ret)` as the pair (return code, `*path_ret`).
`sssp_kernel` / `sssp_final_kernel` are extern declarations that are not
part of the repository sources: the per-source Dijkstra loop is modelled by
the oracle `sssp src j`, giving the row that the device loop copies back
into `distances[src * vertex_count + j]`.  Every device/runtime step that
can fail (graph and state allocation in `initialize_gpu`, the per-source
memsets, the copies back) is collapsed into `dev_ok`; on any failure the
`err` / `err_free_all` handlers free the resources, set `*path_ret = NULL`
and return FAILURE. -/
def apsp_gpu (graph : Option graph_t) (D0 : Nat → weight_t) (dev_ok : Bool)
    (sssp : Nat → Nat → weight_t) : error_t × Option (Nat → weight_t) :=
  match check_special_cases D0 graph with
  | (ret_val, d, true) => (ret_val, d)
  | (_, _, false) =>
    match graph with
    | none => (error_t.FAILURE, none)
    | some g =>
      if dev_ok then
        (error_t.SUCCESS, some ((List.range g.vertex_count).foldl (fun D source_id =>
          (List.range g.vertex_count).foldl (fun D j =>
            store_set D (source_id * g.vertex_count + j) (sssp source_id j)) D) D0))
      else (error_t.FAILURE, none)

/-- Flat row-major indices with in-range column offsets are injective. -/
theorem row_cell_inj {n u v s d : Nat} (hv : v < n) (hd : d < n)
    (h : u * n + v = s * n + d) : u = s ∧ v = d := by
  have hn : 0 < n := by omega
  have hu' : (u * n + v) / n = u := by
    rw [Nat.mul_comm u n, Nat.mul_add_div hn, Nat.div_eq_of_lt hv, Nat.add_zero]
  have hs' : (s * n + d) / n = s := by
    rw [Nat.mul_comm s n, Nat.mul_add_div hn, Nat.div_eq_of_lt hd, Nat.add_zero]
  have hus : u = s := by rw [← hu', ← hs', h]
  subst hus
  exact ⟨rfl, by omega⟩

theorem edgeless_distances_eval (n : Nat) (D0 : Nat → weight_t) :
    ∀ u v, u < n → v < n →
      edgeless_distances n D0 (u * n + v) = if v = u then 0 else WEIGHT_MAX := by
  have h := foldl_range_inv n
    (fun D src =>
      let D := (List.range n).foldl
        (fun D dest => store_set D (src * n + dest) WEIGHT_MAX) D
      store_set D (src * n + src) 0)
    (fun s D => ∀ u v, u < s → v < n →
      D (u * n + v) = if v = u then 0 else WEIGHT_MAX)
    D0 (by intro u v hu hv; omega) ?_
  · exact fun u v hu hv => h u v hu hv
  · intro s D hs hp
    intro u v hu hv
    by_cases hus : u = s
    · subst hus
      have hfill := foldl_range_inv n
        (fun D dest => store_set D (u * n + dest) WEIGHT_MAX)
        (fun d D' => (∀ w, w < d → D' (u * n + w) = WEIGHT_MAX) ∧
          (∀ i, (∀ w, w < n → i ≠ u * n + w) → D' i = D i))
        D (⟨by omega, fun i _ => rfl⟩) ?_
      · rcases hfill with ⟨hfa, _⟩
        by_cases hvu : v = u
        · subst hvu
          show store_set _ (v * n + v) 0 (v * n + v) = _
          rw [store_set_eq, if_pos rfl]
        · show store_set _ (u * n + u) 0 (u * n + v) = _
          rw [store_set_ne, if_neg hvu]
          · exact hfa v hv
          · intro hcon
            exact hvu (row_cell_inj hv hs hcon).2
      · intro d D' hd hp'
        refine ⟨?_, ?_⟩
        · intro w hw
          show store_set D' (u * n + d) WEIGHT_MAX (u * n + w) = WEIGHT_MAX
          by_cases hwd : w = d
          · subst hwd
            exact store_set_eq _ _ _
          · rw [store_set_ne _ _ _ (by
              intro hcon
              exact hwd (row_cell_inj (show w < n by omega) hd hcon).2)]
            exact hp'.1 w (by omega)
        · intro i hi
          show store_set D' (u * n + d) WEIGHT_MAX i = D i
          rw [store_set_ne _ _ _ (hi d hd)]
          exact hp'.2 i hi
    · have hult : u < s := by omega
      have hfill := foldl_range_inv n
        (fun D dest => store_set D (s * n + dest) WEIGHT_MAX)
        (fun d D' => ∀ i, (∀ w, w < n → i ≠ s * n + w) → D' i = D i)
        D (fun i _ => rfl) ?_
      · show store_set _ (s * n + s) 0 (u * n + v) = _
        rw [store_set_ne _ _ _ (by
          intro hcon
          exact hus (row_cell_inj hv hs hcon).1)]
        rw [hfill (u * n + v) (by
          intro w hw hcon
          exact hus (row_cell_inj hv hw hcon).1)]
        exact hp u v hult hv
      · intro d D' hd hp' i hi
        show store_set D' (s * n + d) WEIGHT_MAX i = D i
        rw [store_set_ne _ _ _ (hi d hd)]
        exact hp' i hi

/-- C6 (amended: the graph must be weighted, see the unweighted override of
C9): for every weighted graph with `N ≥ 1` vertices and 0 edges, `apsp_cpu`
and `apsp_gpu` succeed with the distance matrix that is 0 on the diagonal
and `WEIGHT_MAX` off it, and this result comes straight out of
`check_special_cases` (`*finished = true`), independently of the device
oracle and of any device failure — no partition or accelerator resource is
involved. -/
theorem C6_apsp_edgeless (g : graph_t) (D0 : Nat → weight_t) (hw : g.weighted = true)
    (hv : 1 ≤ g.vertex_count) (he : g.edge_count = 0) :
    ∃ M, check_special_cases D0 (some g) = (error_t.SUCCESS, some M, true) ∧
      apsp_cpu (some g) D0 = (error_t.SUCCESS, some M) ∧
      (∀ dev_ok sssp, apsp_gpu (some g) D0 dev_ok sssp = (error_t.SUCCESS, some M)) ∧
      ∀ u v, u < g.vertex_count → v < g.vertex_count →
        M (u * g.vertex_count + v) = if u = v then 0 else WEIGHT_MAX := by
  have hc1 : ¬(g.weighted = false ∨ g.vertex_count = 0) := by
    rw [hw]
    simp
    omega
  by_cases hv1 : g.vertex_count = 1
  · have hcheck : check_special_cases D0 (some g) =
        (error_t.SUCCESS, some (store_set D0 0 0), true) := by
      simp only [check_special_cases]
      rw [if_neg hc1, if_pos hv1]
    refine ⟨store_set D0 0 0, hcheck, ?_, ?_, ?_⟩
    · unfold apsp_cpu
      rw [hcheck]
    · intro dev_ok sssp
      unfold apsp_gpu
      rw [hcheck]
    · intro u v hu hvlt
      have hu0 : u = 0 := by omega
      have hv0 : v = 0 := by omega
      rw [hu0, hv0]
      simp [store_set]
  · have hcheck : check_special_cases D0 (some g) =
        (error_t.SUCCESS, some (edgeless_distances g.vertex_count D0), true) := by
      simp only [check_special_cases]
      rw [if_neg hc1, if_neg hv1, if_pos he]
    refine ⟨edgeless_distances g.vertex_count D0, hcheck, ?_, ?_, ?_⟩
    · unfold apsp_cpu
      rw [hcheck]
    · intro dev_ok sssp
      unfold apsp_gpu
      rw [hcheck]
    · intro u v hu hvlt
      rw [edgeless_distances_eval _ _ u v hu hvlt]
      by_cases huv : u = v
      · rw [if_pos huv.symm, if_pos huv]
      · rw [if_neg (fun h => huv h.symm), if_neg huv]

def c6_graph : graph_t := ⟨2, 0, [0, 0, 0], [], [], false⟩

/-- C6 counterexample: an unweighted graph with 2 vertices and 0 edges.
The claim as stated promises success with a diagonal matrix, but the
unweighted check fails first, returning FAILURE with a null output. -/
theorem C6_counterexample :
    c6_graph.vertex_count = 2 ∧ c6_graph.edge_count = 0 ∧
    apsp_cpu (some c6_graph) (fun _ => 0) = (error_t.FAILURE, none) ∧
    apsp_gpu (some c6_graph) (fun _ => 0) true (fun _ _ => 0) =
      (error_t.FAILURE, none) :=
  ⟨rfl, rfl, rfl, rfl⟩

def c6_wit_graph : graph_t := ⟨3, 0, [0, 0, 0, 0], [], [], true⟩

theorem C6_apsp_edgeless_witness :
    c6_wit_graph.weighted = true ∧ 1 ≤ c6_wit_graph.vertex_count ∧
    c6_wit_graph.edge_count = 0 ∧
    (∃ M, check_special_cases (fun _ => 0) (some c6_wit_graph) =
        (error_t.SUCCESS, some M, true) ∧
      apsp_cpu (some c6_wit_graph) (fun _ => 0) = (error_t.SUCCESS, some M) ∧
      (∀ dev_ok sssp, apsp_gpu (some c6_wit_graph) (fun _ => 0) dev_ok sssp =
        (error_t.SUCCESS, some M)) ∧
      ∀ u v, u < c6_wit_graph.vertex_count → v < c6_wit_graph.vertex_count →
        M (u * c6_wit_graph.vertex_count + v) = if u = v then 0 else WEIGHT_MAX) :=
  ⟨rfl, by decide, rfl,
    C6_apsp_edgeless c6_wit_graph (fun _ => 0) rfl (by decide) rfl⟩

/-- C7 (amended: the graph must be weighted, see the unweighted override of
C9): for every weighted graph with exactly one vertex, `apsp_cpu` and
`apsp_gpu` succeed with the single-entry zero distance, straight out of
`check_special_cases`, independently of the device oracle and of any device
failure. -/
theorem C7_apsp_single_vertex (g : graph_t) (D0 : Nat → weight_t)
    (hw : g.weighted = true) (hv : g.vertex_count = 1) :
    ∃ M, check_special_cases D0 (some g) = (error_t.SUCCESS, some M, true) ∧
      apsp_cpu (some g) D0 = (error_t.SUCCESS, some M) ∧
      (∀ dev_ok sssp, apsp_gpu (some g) D0 dev_ok sssp = (error_t.SUCCESS, some M)) ∧
      M 0 = 0 := by
  have hc1 : ¬(g.weighted = false ∨ g.vertex_count = 0) := by
    rw [hw]
    simp
    omega
  have hcheck : check_special_cases D0 (some g) =
      (error_t.SUCCESS, some (store_set D0 0 0), true) := by
    simp only [check_special_cases]
    rw [if_neg hc1, if_pos hv]
  refine ⟨store_set D0 0 0, hcheck, ?_, ?_, store_set_eq _ _ _⟩
  · unfold apsp_cpu
    rw [hcheck]
  · intro dev_ok sssp
    unfold apsp_gpu
    rw [hcheck]

def c7_graph : graph_t := ⟨1, 0, [0, 0], [], [], false⟩

/-- C7 counterexample: an unweighted graph with exactly one vertex.  The
claim as stated promises a single zero-distance success, but the unweighted
check fails first with a null output. -/
theorem C7_counterexample :
    c7_graph.vertex_count = 1 ∧
    apsp_cpu (some c7_graph) (fun _ => 0) = (error_t.FAILURE, none) ∧
    apsp_gpu (some c7_graph) (fun _ => 0) true (fun _ _ => 0) =
      (error_t.FAILURE, none) :=
  ⟨rfl, rfl, rfl⟩

def c7_wit_graph : graph_t := ⟨1, 1, [0, 1], [0], [5], true⟩

theorem C7_apsp_single_vertex_witness :
    c7_wit_graph.weighted = true ∧ c7_wit_graph.vertex_count = 1 ∧
    (∃ M, check_special_cases (fun _ => 0) (some c7_wit_graph) =
        (error_t.SUCCESS, some M, true) ∧
      apsp_cpu (some c7_wit_graph) (fun _ => 0) = (error_t.SUCCESS, some M) ∧
      (∀ dev_ok sssp, apsp_gpu (some c7_wit_graph) (fun _ => 0) dev_ok sssp =
        (error_t.SUCCESS, some M)) ∧
      M 0 = 0) :=
  ⟨rfl, rfl, C7_apsp_single_vertex c7_wit_graph (fun _ => 0) rfl rfl⟩

theorem check_failure_null (D0 : Nat → weight_t) (graph : Option graph_t) :
    (check_special_cases D0 graph).1 = error_t.FAILURE →
      (check_special_cases D0 graph).2.1 = none := by
  rcases graph with _ | g
  · intro _
    rfl
  · simp only [check_special_cases]
    split_ifs <;> intro h <;> first | rfl | cases h

/-- C8: whenever `apsp_cpu` or `apsp_gpu` reports FAILURE, the output
parameter (`*distances` / `*path_ret`) is NULL — no partial distance matrix
is exposed. -/
theorem C8_failure_null (graph : Option graph_t) (D0 : Nat → weight_t) (dev_ok : Bool)
    (sssp : Nat → Nat → weight_t) :
    ((apsp_cpu graph D0).1 = error_t.FAILURE → (apsp_cpu graph D0).2 = none) ∧
    ((apsp_gpu graph D0 dev_ok sssp).1 = error_t.FAILURE →
      (apsp_gpu graph D0 dev_ok sssp).2 = none) := by
  have hck := check_failure_null D0 graph
  rcases hc : check_special_cases D0 graph with ⟨ret, d, fin⟩
  rw [hc] at hck
  cases fin
  · unfold apsp_cpu apsp_gpu
    rw [hc]
    rcases graph with _ | g
    · exact ⟨fun _ => rfl, fun _ => rfl⟩
    · refine ⟨fun h => (by cases h), ?_⟩
      cases dev_ok
      · exact fun _ => rfl
      · exact fun h => (by cases h)
  · unfold apsp_cpu apsp_gpu
    rw [hc]
    exact ⟨fun h => hck h, fun h => hck h⟩

theorem C8_failure_null_witness :
    (apsp_cpu none (fun _ => 0)).1 = error_t.FAILURE ∧
    (apsp_cpu none (fun _ => 0)).2 = none ∧
    (apsp_gpu none (fun _ => 0) true (fun _ _ => 0)).2 = none :=
  ⟨rfl, (C8_failure_null none (fun _ => 0) true (fun _ _ => 0)).1 rfl,
    (C8_failure_null none (fun _ => 0) true (fun _ _ => 0)).2 rfl⟩

/-- C9: for every graph whose `weighted` flag is false — whatever its vertex
and edge counts, including single-vertex and edgeless graphs — `apsp_cpu`
and `apsp_gpu` return FAILURE with a NULL output: the unweighted check
precedes and overrides the single-vertex and edgeless special cases. -/
theorem C9_unweighted_failure (g : graph_t) (D0 : Nat → weight_t)
    (hw : g.weighted = false) :
    apsp_cpu (some g) D0 = (error_t.FAILURE, none) ∧
    ∀ dev_ok sssp, apsp_gpu (some g) D0 dev_ok sssp = (error_t.FAILURE, none) := by
  have hcheck : check_special_cases D0 (some g) = (error_t.FAILURE, none, true) := by
    simp only [check_special_cases]
    rw [if_pos (Or.inl hw)]
  constructor
  · unfold apsp_cpu
    rw [hcheck]
  · intro dev_ok sssp
    unfold apsp_gpu
    rw [hcheck]

theorem C9_unweighted_failure_witness :
    c7_graph.weighted = false ∧ c6_graph.weighted = false ∧
    (apsp_cpu (some c7_graph) (fun _ => 0) = (error_t.FAILURE, none) ∧
      ∀ dev_ok sssp, apsp_gpu (some c7_graph) (fun _ => 0) dev_ok sssp =
        (error_t.FAILURE, none)) ∧
    (apsp_cpu (some c6_graph) (fun _ => 0) = (error_t.FAILURE, none) ∧
      ∀ dev_ok sssp, apsp_gpu (some c6_graph) (fun _ => 0) dev_ok sssp =
        (error_t.FAILURE, none)) :=
  ⟨rfl, rfl, C9_unweighted_failure c7_graph (fun _ => 0) rfl,
    C9_unweighted_failure c6_graph (fun _ => 0) rfl⟩

/-! ## APSP: Floyd-Warshall correctness of `apsp_cpu` -/

/-- Well-formedness of the CSR graph (what the graph loader guarantees):
`vertex_count + 1` row offsets starting at 0, ending at `edge_count`,
non-decreasing, edge/weight arrays of length `edge_count`, and every edge
destination in range. -/
def graph_wf (g : graph_t) : Prop :=
  g.vertices.length = g.vertex_count + 1 ∧
  g.edges.length = g.edge_count ∧
  g.weights.length = g.edge_count ∧
  g.vertices.getD 0 0 = 0 ∧
  g.vertices.getD g.vertex_count 0 = g.edge_count ∧
  (∀ u < g.vertex_count, g.vertices.getD u 0 ≤ g.vertices.getD (u + 1) 0) ∧
  (∀ e < g.edge_count, g.edges.getD e 0 < g.vertex_count)

/-- No parallel edges: within each row's CSR range the destinations are
pairwise distinct. -/
def graph_no_dup (g : graph_t) : Prop :=
  ∀ u < g.vertex_count,
    ((List.range' (g.vertices.getD u 0)
        (g.vertices.getD (u + 1) 0 - g.vertices.getD u 0)).map
      (fun e => g.edges.getD e 0)).Nodup

instance graph_wf_decidable (g : graph_t) : Decidable (graph_wf g) := by
  unfold graph_wf
  infer_instance

instance graph_no_dup_decidable (g : graph_t) : Decidable (graph_no_dup g) := by
  unfold graph_no_dup
  infer_instance

/-- Running minimum of the weights of the edges from `u` to `v` over a list
of edge indices. -/
def edge_w_pre (g : graph_t) (pre : List Nat) (v : Nat) : weight_t :=
  pre.foldl (fun acc e =>
    if g.edges.getD e 0 = v then min acc ((g.weights.getD e 0 : Nat) : weight_t)
    else acc) WEIGHT_MAX

/-- The weight of the edge from `u` to `v`: the minimum of `weights[e]` over
the CSR edges of `u` with destination `v`, `WEIGHT_MAX` when there is
none. -/
def edge_w (g : graph_t) (u v : Nat) : weight_t :=
  edge_w_pre g (List.range' (g.vertices.getD u 0)
    (g.vertices.getD (u + 1) 0 - g.vertices.getD u 0)) v

/-- The adjacency matrix `apsp_cpu` starts from: 0 on the diagonal (any
self-loop weight is overwritten), the edge weight elsewhere. -/
def dist0 (g : graph_t) (u v : Nat) : weight_t :=
  if u = v then 0 else edge_w g u v

/-- The Floyd-Warshall recurrence: `distK g k u v` is the least weight over
paths from `u` to `v` whose intermediate vertices are all below `k`. -/
def distK (g : graph_t) : Nat → Nat → Nat → weight_t
  | 0, u, v => dist0 g u v
  | k + 1, u, v => min (distK g k u v) (distK g k u k + distK g k k v)

theorem dist0_diag (g : graph_t) (u : Nat) : dist0 g u u = 0 := if_pos rfl

theorem distK_diag (g : graph_t) (k u : Nat) : distK g k u u = 0 := by
  induction k with
  | zero => exact dist0_diag g u
  | succ k ih =>
      show min (distK g k u u) _ = 0
      rw [ih]
      exact min_eq_left (zero_le _)

theorem distK_right_k (g : graph_t) (k u : Nat) : distK g (k + 1) u k = distK g k u k := by
  show min (distK g k u k) (distK g k u k + distK g k k k) = _
  rw [distK_diag, add_zero, min_self]

theorem distK_left_k (g : graph_t) (k v : Nat) : distK g (k + 1) k v = distK g k k v := by
  show min (distK g k k v) (distK g k k k + distK g k k v) = _
  rw [distK_diag, zero_add, min_self]

theorem distK_le_dist0 (g : graph_t) (k u v : Nat) : distK g k u v ≤ dist0 g u v := by
  induction k with
  | zero => exact le_refl _
  | succ k ih => exact le_trans (min_le_left _ _) ih

theorem edge_w_pre_top (g : graph_t) (v : Nat) :
    ∀ pre, (∀ e ∈ pre, g.edges.getD e 0 ≠ v) → edge_w_pre g pre v = ⊤ := by
  have h : ∀ (pre : List Nat) (a : weight_t), (∀ e ∈ pre, g.edges.getD e 0 ≠ v) →
      pre.foldl (fun acc e =>
        if g.edges.getD e 0 = v then min acc ((g.weights.getD e 0 : Nat) : weight_t)
        else acc) a = a := by
    intro pre
    induction pre with
    | nil => intro a _; rfl
    | cons e pre ih =>
        intro a hne
        show List.foldl _ (if g.edges.getD e 0 = v then _ else a) pre = a
        rw [if_neg (hne e (List.mem_cons_self e pre))]
        exact ih a (fun e' he' => hne e' (List.mem_cons_of_mem _ he'))
  intro pre hne
  exact h pre ⊤ hne

theorem edge_w_pre_append (g : graph_t) (pre : List Nat) (e v : Nat) :
    edge_w_pre g (pre ++ [e]) v =
      if g.edges.getD e 0 = v
      then min (edge_w_pre g pre v) ((g.weights.getD e 0 : Nat) : weight_t)
      else edge_w_pre g pre v := by
  unfold edge_w_pre
  rw [List.foldl_append]
  rfl

/-- Row offsets are monotone along the whole vertex range. -/
theorem vertices_mono (g : graph_t) (hwf : graph_wf g) :
    ∀ a b, a ≤ b → b ≤ g.vertex_count →
      g.vertices.getD a 0 ≤ g.vertices.getD b 0 := by
  intro a b
  induction b with
  | zero =>
      intro hab _
      have ha : a = 0 := by omega
      rw [ha]
  | succ b ih =>
      intro hab hb
      by_cases hab' : a = b + 1
      · rw [hab']
      · exact le_trans (ih (by omega) (by omega)) (hwf.2.2.2.2.2.1 b (by omega))

theorem row_range_bound (g : graph_t) (hwf : graph_wf g) (s : Nat)
    (hs : s < g.vertex_count) :
    ∀ e ∈ List.range' (g.vertices.getD s 0)
      (g.vertices.getD (s + 1) 0 - g.vertices.getD s 0),
      e < g.edge_count ∧ g.edges.getD e 0 < g.vertex_count := by
  intro e he
  rw [List.mem_range'_1] at he
  have hle : g.vertices.getD (s + 1) 0 ≤ g.edge_count := by
    have h := vertices_mono g hwf (s + 1) g.vertex_count (by omega) (le_refl _)
    rw [hwf.2.2.2.2.1] at h
    exact h
  have he1 : e < g.edge_count := by omega
  exact ⟨he1, hwf.2.2.2.2.2.2 e he1⟩

theorem init_distances_eval (g : graph_t) (D0 : Nat → weight_t)
    (hwf : graph_wf g) (hnd : graph_no_dup g) :
    ∀ u v, u < g.vertex_count → v < g.vertex_count →
      apsp_init_distances g D0 (u * g.vertex_count + v) = dist0 g u v := by
  have hmain := foldl_range_inv g.vertex_count
    (fun D src =>
      let D := (List.range g.vertex_count).foldl
        (fun D dest => store_set D (src * g.vertex_count + dest) WEIGHT_MAX) D
      let estart := g.vertices.getD src 0
      let eend := g.vertices.getD (src + 1) 0
      let D := (List.range' estart (eend - estart)).foldl
        (fun D e => store_set D (src * g.vertex_count + g.edges.getD e 0)
          ((g.weights.getD e 0 : Nat) : weight_t)) D
      store_set D (src * g.vertex_count + src) 0)
    (fun s D => ∀ u v, u < s → v < g.vertex_count →
      D (u * g.vertex_count + v) = dist0 g u v)
    D0 (by intro u v hu hv; omega) ?_
  · exact hmain
  · intro s D hs hp u v hu hv
    have hfill := foldl_range_inv g.vertex_count
      (fun D dest => store_set D (s * g.vertex_count + dest) WEIGHT_MAX)
      (fun d D' => (∀ w, w < d → D' (s * g.vertex_count + w) = WEIGHT_MAX) ∧
        (∀ i, (∀ w, w < g.vertex_count → i ≠ s * g.vertex_count + w) → D' i = D i))
      D (⟨by omega, fun i _ => rfl⟩) (by
        intro d D' hd hp'
        refine ⟨?_, ?_⟩
        · intro w hw
          show store_set D' (s * g.vertex_count + d) WEIGHT_MAX
            (s * g.vertex_count + w) = WEIGHT_MAX
          by_cases hwd : w = d
          · rw [hwd]
            exact store_set_eq _ _ _
          · rw [store_set_ne _ _ _ (fun hcon => hwd (Nat.add_left_cancel hcon))]
            exact hp'.1 w (by omega)
        · intro i hi
          show store_set D' (s * g.vertex_count + d) WEIGHT_MAX i = D i
          rw [store_set_ne _ _ _ (hi d hd)]
          exact hp'.2 i hi)
    have hedge := foldl_inv_pre
      (List.range' (g.vertices.getD s 0)
        (g.vertices.getD (s + 1) 0 - g.vertices.getD s 0))
      (fun D e => store_set D (s * g.vertex_count + g.edges.getD e 0)
        ((g.weights.getD e 0 : Nat) : weight_t))
      (fun pre D' => (∀ w, w < g.vertex_count →
          D' (s * g.vertex_count + w) = edge_w_pre g pre w) ∧
        (∀ i, (∀ w, w < g.vertex_count → i ≠ s * g.vertex_count + w) →
          D' i = ((List.range g.vertex_count).foldl
            (fun D dest => store_set D (s * g.vertex_count + dest) WEIGHT_MAX) D) i))
      ((List.range g.vertex_count).foldl
        (fun D dest => store_set D (s * g.vertex_count + dest) WEIGHT_MAX) D)
      (⟨fun w hw => hfill.1 w hw, fun i _ => rfl⟩) (by
      intro pre e D' hex hP
      have he_mem : e ∈ List.range' (g.vertices.getD s 0)
          (g.vertices.getD (s + 1) 0 - g.vertices.getD s 0) := by
        rcases hex with ⟨R, hR⟩
        rw [← hR]
        exact List.mem_append_right _ (List.mem_cons_self _ _)
      obtain ⟨heec, hdlt⟩ := row_range_bound g hwf s hs e he_mem
      refine ⟨?_, ?_⟩
      · intro w hw
        show store_set D' (s * g.vertex_count + g.edges.getD e 0)
          ((g.weights.getD e 0 : Nat) : weight_t) (s * g.vertex_count + w) =
          edge_w_pre g (pre ++ [e]) w
        rw [edge_w_pre_append]
        by_cases hwd : g.edges.getD e 0 = w
        · rw [if_pos hwd, ← hwd, store_set_eq]
          have hpre_top : edge_w_pre g pre (g.edges.getD e 0) = ⊤ := by
            apply edge_w_pre_top
            intro e' he' hcon
            rcases hex with ⟨R, hR⟩
            have hnodup := hnd s hs
            rw [← hR, List.map_append, List.map_cons] at hnodup
            have hdisj := List.disjoint_of_nodup_append hnodup
            exact hdisj (List.mem_map.mpr ⟨e', he', hcon⟩)
              (List.mem_cons_self _ _)
          rw [hpre_top]
          exact (min_eq_right le_top).symm
        · rw [if_neg hwd,
            store_set_ne _ _ _ (fun hcon => hwd (Nat.add_left_cancel hcon).symm)]
          exact hP.1 w hw
      · intro i hi
        show store_set D' (s * g.vertex_count + g.edges.getD e 0)
          ((g.weights.getD e 0 : Nat) : weight_t) i = _
        rw [store_set_ne _ _ _ (hi _ hdlt)]
        exact hP.2 i hi)
    show store_set _ (s * g.vertex_count + s) 0 (u * g.vertex_count + v) = dist0 g u v
    by_cases hus : u = s
    · subst hus
      by_cases hvs : v = u
      · rw [hvs, store_set_eq, dist0_diag]
      · rw [store_set_ne _ _ _
          (fun hcon => hvs (Nat.add_left_cancel hcon)),
          hedge.1 v hv]
        unfold dist0
        rw [if_neg (fun h => hvs h.symm)]
        rfl
    · have hult : u < s := by omega
      rw [store_set_ne _ _ _
          (fun hcon => hus (row_cell_inj hv hs hcon).1),
        hedge.2 (u * g.vertex_count + v)
          (fun w hw hcon => hus (row_cell_inj hv hw hcon).1),
        hfill.2 (u * g.vertex_count + v)
          (fun w hw hcon => hus (row_cell_inj hv hw hcon).1)]
      exact hp u v hult hv

theorem main_loop_eval (g : graph_t) (D : Nat → weight_t)
    (hD : ∀ u v, u < g.vertex_count → v < g.vertex_count →
      D (u * g.vertex_count + v) = dist0 g u v) :
    ∀ u v, u < g.vertex_count → v < g.vertex_count →
      apsp_main_loop g D (u * g.vertex_count + v) = distK g g.vertex_count u v := by
  have hmain := foldl_range_inv g.vertex_count
    (fun D mid =>
      (List.range g.vertex_count).foldl (fun D src =>
        (List.range g.vertex_count).foldl (fun D dest =>
          store_set D (src * g.vertex_count + dest)
            (min (D (src * g.vertex_count + dest))
              (D (src * g.vertex_count + mid) + D (mid * g.vertex_count + dest)))) D) D)
    (fun k D' => ∀ u v, u < g.vertex_count → v < g.vertex_count →
      D' (u * g.vertex_count + v) = distK g k u v)
    D (fun u v hu hv => hD u v hu hv) (by
      intro k Dk hk hPk
      have hpass := foldl_range_inv g.vertex_count
        (fun D src =>
          (List.range g.vertex_count).foldl (fun D dest =>
            store_set D (src * g.vertex_count + dest)
              (min (D (src * g.vertex_count + dest))
                (D (src * g.vertex_count + k) + D (k * g.vertex_count + dest)))) D)
        (fun s D' => ∀ u v, u < g.vertex_count → v < g.vertex_count →
          D' (u * g.vertex_count + v) =
            if u < s then distK g (k + 1) u v else distK g k u v)
        Dk (by
          intro u v hu hv
          rw [if_neg (by omega)]
          exact hPk u v hu hv) (by
          intro s Ds hsn hPs
          have hrow := foldl_range_inv g.vertex_count
            (fun D dest =>
              store_set D (s * g.vertex_count + dest)
                (min (D (s * g.vertex_count + dest))
                  (D (s * g.vertex_count + k) + D (k * g.vertex_count + dest))))
            (fun d D' => ∀ u v, u < g.vertex_count → v < g.vertex_count →
              D' (u * g.vertex_count + v) =
                if u = s then (if v < d then distK g (k + 1) s v else distK g k s v)
                else (if u < s then distK g (k + 1) u v else distK g k u v))
            Ds (by
              intro u v hu hv
              by_cases hus : u = s
              · subst hus
                rw [if_pos rfl, if_neg (by omega), hPs u v hu hv, if_neg (by omega)]
              · rw [if_neg hus]
                exact hPs u v hu hv) (by
              intro d Dd hdn hPd
              intro u v hu hv
              show store_set Dd (s * g.vertex_count + d)
                (min (Dd (s * g.vertex_count + d))
                  (Dd (s * g.vertex_count + k) + Dd (k * g.vertex_count + d)))
                (u * g.vertex_count + v) = _
              have hread_sd : Dd (s * g.vertex_count + d) = distK g k s d := by
                rw [hPd s d hsn hdn, if_pos rfl, if_neg (by omega)]
              have hread_sk : Dd (s * g.vertex_count + k) = distK g k s k := by
                rw [hPd s k hsn hk, if_pos rfl]
                by_cases hkd : k < d
                · rw [if_pos hkd]
                  exact distK_right_k g k s
                · rw [if_neg hkd]
              have hread_kd : Dd (k * g.vertex_count + d) = distK g k k d := by
                rw [hPd k d hk hdn]
                by_cases hks : k = s
                · rw [if_pos hks, if_neg (by omega : ¬ d < d), ← hks]
                · rw [if_neg hks]
                  by_cases hksl : k < s
                  · rw [if_pos hksl]
                    exact distK_left_k g k d
                  · rw [if_neg hksl]
              by_cases hus : u = s
              · subst hus
                by_cases hvd : v = d
                · subst hvd
                  rw [store_set_eq, hread_sd, hread_sk, hread_kd, if_pos rfl,
                    if_pos (by omega)]
                  rfl
                · rw [store_set_ne _ _ _ (fun hcon => hvd (Nat.add_left_cancel hcon)),
                    hPd u v hu hv, if_pos rfl, if_pos rfl]
                  by_cases hvlt : v < d
                  · rw [if_pos hvlt, if_pos (by omega)]
                  · rw [if_neg hvlt, if_neg (by omega)]
              · rw [store_set_ne _ _ _ (fun hcon => hus (row_cell_inj hv hdn hcon).1),
                  hPd u v hu hv, if_neg hus, if_neg hus])
          intro u v hu hv
          have hr := hrow u v hu hv
          have h2 : (if u = s
                then (if v < g.vertex_count then distK g (k + 1) s v else distK g k s v)
                else (if u < s then distK g (k + 1) u v else distK g k u v)) =
              (if u < s + 1 then distK g (k + 1) u v else distK g k u v) := by
            by_cases hus : u = s
            · subst hus
              rw [if_pos rfl, if_pos hv, if_pos (by omega)]
            · rw [if_neg hus]
              by_cases hul : u < s
              · rw [if_pos hul, if_pos (by omega)]
              · rw [if_neg hul, if_neg (by omega)]
          exact hr.trans h2)
      intro u v hu hv
      have hp2 := hpass u v hu hv
      exact hp2.trans (if_pos hu))
  exact fun u v hu hv => hmain u v hu hv

/-- Weight of a walk given as its full vertex sequence: the sum of the edge
weights of consecutive pairs (`⊤` as soon as a pair is not an edge). -/
def walkW (g : graph_t) : List Nat → weight_t
  | [] => 0
  | [_] => 0
  | a :: b :: p => edge_w g a b + walkW g (b :: p)

/-- A walk from `u` to `v`: a non-empty vertex sequence starting at `u` and
ending at `v`. -/
def IsWalk (p : List Nat) (u v : Nat) : Prop :=
  p.head? = some u ∧ p.getLast? = some v

/-- The min-plus shortest-path distance: the infimum of the weights of all
walks from `u` to `v` (`⊤` when `v` is unreachable; `0` for `u = v` via the
trivial walk). -/
noncomputable def apsp_dist (g : graph_t) (u v : Nat) : weight_t :=
  sInf {w | ∃ p, IsWalk p u v ∧ walkW g p = w}

theorem walkW_glue (g : graph_t) :
    ∀ (p q : List Nat) (m : Nat), p.getLast? = some m → q.head? = some m →
      walkW g (p ++ q.tail) = walkW g p + walkW g q := by
  intro p
  induction p with
  | nil =>
      intro q m h _
      simp at h
  | cons a p ih =>
      intro q m hlast hhead
      cases p with
      | nil =>
          have ham : a = m := by simpa using hlast
          cases q with
          | nil => simp at hhead
          | cons b t =>
              have hbm : b = m := by simpa using hhead
              rw [ham, hbm]
              show walkW g (m :: t) = 0 + walkW g (m :: t)
              rw [zero_add]
      | cons b p' =>
          have hlast' : (b :: p').getLast? = some m := by
            rw [← List.getLast?_cons_cons]
            exact hlast
          have ihr : walkW g (b :: (p' ++ q.tail)) = walkW g (b :: p') + walkW g q :=
            ih q m hlast' hhead
          show edge_w g a b + walkW g (b :: (p' ++ q.tail)) =
            (edge_w g a b + walkW g (b :: p')) + walkW g q
          rw [ihr, add_assoc]

theorem distK_walk_ub (g : graph_t) (k : Nat) :
    ∀ u v, ∃ p, IsWalk p u v ∧ walkW g p ≤ distK g k u v := by
  induction k with
  | zero =>
      intro u v
      by_cases huv : u = v
      · subst huv
        refine ⟨[u], ⟨rfl, rfl⟩, ?_⟩
        rw [distK_diag g 0 u]
        exact le_refl _
      · refine ⟨[u, v], ⟨rfl, rfl⟩, ?_⟩
        show walkW g [u, v] ≤ dist0 g u v
        rw [dist0, if_neg huv]
        show edge_w g u v + 0 ≤ edge_w g u v
        rw [add_zero]
  | succ k ih =>
      intro u v
      rcases ih u v with ⟨p1, hw1, hle1⟩
      rcases ih u k with ⟨p2, hw2, hle2⟩
      rcases ih k v with ⟨p3, hw3, hle3⟩
      rcases le_total (distK g k u v) (distK g k u k + distK g k k v) with hmin | hmin
      · refine ⟨p1, hw1, ?_⟩
        show walkW g p1 ≤ min (distK g k u v) (distK g k u k + distK g k k v)
        rw [min_eq_left hmin]
        exact hle1
      · refine ⟨p2 ++ p3.tail, ⟨?_, ?_⟩, ?_⟩
        · cases p2 with
          | nil => simp [IsWalk] at hw2
          | cons a t =>
              have ha : a = u := by simpa [IsWalk] using hw2.1
              rw [List.head?_append_of_ne_nil _ (by simp)]
              simp [ha]
        · cases p3 with
          | nil => simp [IsWalk] at hw3
          | cons x t3 =>
              have hxk : x = k := by simpa [IsWalk] using hw3.1
              cases t3 with
              | nil =>
                  have hxv : x = v := by simpa [IsWalk] using hw3.2
                  show (p2 ++ ([x] : List Nat).tail).getLast? = some v
                  rw [show ([x] : List Nat).tail = [] from rfl, List.append_nil, hw2.2]
                  rw [← hxk, hxv]
              | cons c t3' =>
                  show (p2 ++ (c :: t3')).getLast? = some v
                  rw [List.getLast?_append_of_ne_nil _ (by simp)]
                  exact List.getLast?_cons_cons.symm.trans hw3.2
        · rw [walkW_glue g p2 p3 k hw2.2 hw3.1]
          show _ ≤ min (distK g k u v) (distK g k u k + distK g k k v)
          rw [min_eq_right hmin]
          exact add_le_add hle2 hle3

theorem walk_lower (g : graph_t) :
    ∀ k p u v, IsWalk p u v → (∀ x ∈ p.tail.dropLast, x < k) →
      distK g k u v ≤ walkW g p := by
  intro k
  induction k with
  | zero =>
      intro p u v hw hint
      rcases hw with ⟨hh, hl⟩
      cases p with
      | nil => simp at hh
      | cons a t =>
          have hau : a = u := by simpa using hh
          cases t with
          | nil =>
              have hav : a = v := by simpa using hl
              have huv : u = v := by rw [← hau, hav]
              rw [huv, distK_diag]
              exact zero_le _
          | cons b t' =>
              cases t' with
              | nil =>
                  have hbv : b = v := by simpa using hl
                  show dist0 g u v ≤ edge_w g a b + walkW g [b]
                  rw [hau, hbv]
                  show dist0 g u v ≤ edge_w g u v + 0
                  rw [add_zero]
                  unfold dist0
                  by_cases huv : u = v
                  · rw [if_pos huv]
                    exact zero_le _
                  · rw [if_neg huv]
              | cons c t'' =>
                  exfalso
                  have hbmem : b ∈ (a :: b :: c :: t'').tail.dropLast := by simp
                  exact absurd (hint b hbmem) (by omega)
  | succ k ihk =>
      suffices h : ∀ N p u v, p.length ≤ N → IsWalk p u v →
          (∀ x ∈ p.tail.dropLast, x < k + 1) → distK g (k + 1) u v ≤ walkW g p by
        intro p u v hw hint
        exact h p.length p u v (le_refl _) hw hint
      intro N
      induction N with
      | zero =>
          intro p u v hlen hw _
          rcases hw with ⟨hh, _⟩
          cases p with
          | nil => simp at hh
          | cons a t => simp at hlen
      | succ N ihN =>
          intro p u v hlen hw hint
          by_cases hkmem : k ∈ p.tail.dropLast
          case neg =>
              have hint' : ∀ x ∈ p.tail.dropLast, x < k := by
                intro x hx
                have hx1 := hint x hx
                by_cases hxk : x = k
                · exact absurd (hxk ▸ hx) hkmem
                · omega
              exact le_trans (min_le_left _ _) (ihk p u v hw hint')
          case pos =>
              rcases hw with ⟨hh, hl⟩
              cases p with
              | nil => simp at hh
              | cons a t =>
                  have hau : a = u := by simpa using hh
                  have htne : t ≠ [] := by
                    intro ht
                    rw [show (a :: t).tail = t from rfl, ht] at hkmem
                    simp at hkmem
                  have hlt : t.getLast? = some v := by
                    cases t with
                    | nil => exact absurd rfl htne
                    | cons b t' => exact List.getLast?_cons_cons.symm.trans hl
                  rcases mem_split_first hkmem with ⟨s1, s2, hs12, hks1⟩
                  have htd : t.dropLast ++ [t.getLast htne] = t :=
                    List.dropLast_append_getLast htne
                  have hgl : t.getLast htne = v := by
                    have h1 := List.getLast?_eq_getLast t htne
                    rw [hlt] at h1
                    exact (Option.some.inj h1).symm
                  have hs12' : t.dropLast = s1 ++ k :: s2 := hs12
                  have ht : t = s1 ++ k :: (s2 ++ [v]) := by
                    rw [← htd, hs12', hgl]
                    simp
                  have hp1walk : IsWalk (a :: (s1 ++ [k])) u k := by
                    constructor
                    · simpa using hau
                    · show (([a] ++ (s1 ++ [k])) : List Nat).getLast? = some k
                      rw [List.getLast?_append_of_ne_nil _ (by simp),
                        List.getLast?_append_of_ne_nil _ (by simp)]
                      rfl
                  have hp2walk : IsWalk (k :: (s2 ++ [v])) k v := by
                    constructor
                    · rfl
                    · show (([k] ++ (s2 ++ [v])) : List Nat).getLast? = some v
                      rw [List.getLast?_append_of_ne_nil _ (by simp),
                        List.getLast?_append_of_ne_nil _ (by simp)]
                      rfl
                  have hint1 : ∀ x ∈ (a :: (s1 ++ [k])).tail.dropLast, x < k := by
                    intro x hx
                    have hx' : x ∈ s1 := by simpa using hx
                    have hxk : x ≠ k := fun hxe => hks1 (hxe ▸ hx')
                    have hxin : x ∈ (a :: t).tail.dropLast := by
                      show x ∈ t.dropLast
                      rw [hs12']
                      exact List.mem_append_left _ hx'
                    have := hint x hxin
                    omega
                  have hint2 : ∀ x ∈ (k :: (s2 ++ [v])).tail.dropLast, x < k + 1 := by
                    intro x hx
                    have hx' : x ∈ s2 := by simpa using hx
                    apply hint x
                    show x ∈ t.dropLast
                    rw [hs12']
                    exact List.mem_append_right _ (List.mem_cons_of_mem _ hx')
                  have hlen2 : (k :: (s2 ++ [v])).length ≤ N := by
                    have hplen : (a :: t).length = s1.length + s2.length + 3 := by
                      rw [ht]
                      simp [List.length_append]
                      omega
                    have hplen' : (a :: t).length ≤ N + 1 := hlen
                    simp [List.length_append]
                    omega
                  have hb1 : distK g k u k ≤ walkW g (a :: (s1 ++ [k])) :=
                    ihk _ u k hp1walk hint1
                  have hb2 : distK g (k + 1) k v ≤ walkW g (k :: (s2 ++ [v])) :=
                    ihN _ k v hlen2 hp2walk hint2
                  rw [distK_left_k] at hb2
                  have hglue : walkW g ((a :: (s1 ++ [k])) ++ (k :: (s2 ++ [v])).tail) =
                      walkW g (a :: (s1 ++ [k])) + walkW g (k :: (s2 ++ [v])) :=
                    walkW_glue g _ _ k hp1walk.2 rfl
                  have hpe : (a :: (s1 ++ [k])) ++ (k :: (s2 ++ [v])).tail = a :: t := by
                    show a :: (s1 ++ [k]) ++ (s2 ++ [v]) = a :: t
                    rw [ht]
                    simp
                  rw [hpe] at hglue
                  calc distK g (k + 1) u v
                      ≤ distK g k u k + distK g k k v := min_le_right _ _
                    _ ≤ walkW g (a :: (s1 ++ [k])) + walkW g (k :: (s2 ++ [v])) :=
                        add_le_add hb1 hb2
                    _ = walkW g (a :: t) := hglue.symm

theorem edge_w_top_of_ge (g : graph_t) (hwf : graph_wf g) (a b : Nat)
    (hb : g.vertex_count ≤ b) : edge_w g a b = ⊤ := by
  unfold edge_w
  apply edge_w_pre_top
  intro e he
  by_cases ha : a < g.vertex_count
  · obtain ⟨_, hd⟩ := row_range_bound g hwf a ha e he
    omega
  · exfalso
    have hlen0 : g.vertices.getD (a + 1) 0 = 0 := by
      apply List.getD_eq_default
      rw [hwf.1]
      omega
    rw [List.mem_range'_1, hlen0] at he
    omega

theorem walkW_top_of_big (g : graph_t) (hwf : graph_wf g) :
    ∀ p u v, p.head? = some u → u < g.vertex_count → p.getLast? = some v →
      v < g.vertex_count → (∃ x ∈ p, g.vertex_count ≤ x) → walkW g p = ⊤ := by
  intro p
  induction p with
  | nil =>
      intro u v hh _ _ _ _
      simp at hh
  | cons a t ih =>
      intro u v hh hu hl hv hex
      have hau : a = u := by simpa using hh
      cases t with
      | nil =>
          rcases hex with ⟨x, hx, hxn⟩
          have hxa : x = a := by simpa using hx
          omega
      | cons b t' =>
          rcases hex with ⟨x, hx, hxn⟩
          rcases List.mem_cons.mp hx with hxa | hxbt
          · omega
          · by_cases hbn : b < g.vertex_count
            · have hrest : walkW g (b :: t') = ⊤ :=
                ih b v rfl hbn (List.getLast?_cons_cons.symm.trans hl) hv ⟨x, hxbt, hxn⟩
              show edge_w g a b + walkW g (b :: t') = ⊤
              rw [hrest, add_top]
            · show edge_w g a b + walkW g (b :: t') = ⊤
              rw [edge_w_top_of_ge g hwf a b (by omega), top_add]

theorem distK_full_eq_dist (g : graph_t) (hwf : graph_wf g) (u v : Nat)
    (hu : u < g.vertex_count) (hv : v < g.vertex_count) :
    distK g g.vertex_count u v = apsp_dist g u v := by
  apply le_antisymm
  · apply le_sInf
    rintro w ⟨p, ⟨hh, hl⟩, rfl⟩
    by_cases hall : ∀ x ∈ p.tail.dropLast, x < g.vertex_count
    · exact walk_lower g g.vertex_count p u v ⟨hh, hl⟩ hall
    · push_neg at hall
      rcases hall with ⟨x, hx, hxn⟩
      have hxp : x ∈ p := (List.tail_sublist p).subset ((List.dropLast_sublist _).subset hx)
      rw [walkW_top_of_big g hwf p u v hh hu hl hv ⟨x, hxp, hxn⟩]
      exact le_top
  · rcases distK_walk_ub g g.vertex_count u v with ⟨p, hwp, hle⟩
    exact le_trans (sInf_le ⟨p, hwp, rfl⟩) hle

/-- C10: on a weighted graph with at least 2 vertices, at least 1 edge, no
parallel edges and (nonnegative, natural) edge weights, `apsp_cpu` returns
SUCCESS and a flat `vertex_count × vertex_count` matrix whose entry `(u, v)`
is the min-plus shortest-path distance: 0 on the diagonal (self-loop
weights are overwritten), `WEIGHT_MAX` when `v` is unreachable from `u`, and
otherwise the least total weight over all walks from `u` to `v` — all three
cases packaged as the infimum `apsp_dist`. -/
theorem C10_apsp_cpu_shortest_paths (g : graph_t) (D0 : Nat → weight_t)
    (hw : g.weighted = true) (hv2 : 2 ≤ g.vertex_count) (he1 : 1 ≤ g.edge_count)
    (hwf : graph_wf g) (hnd : graph_no_dup g) :
    ∃ M, apsp_cpu (some g) D0 = (error_t.SUCCESS, some M) ∧
      ∀ u v, u < g.vertex_count → v < g.vertex_count →
        M (u * g.vertex_count + v) = apsp_dist g u v ∧
        (u = v → M (u * g.vertex_count + v) = 0) := by
  have hcheck : check_special_cases D0 (some g) = (error_t.SUCCESS, none, false) := by
    simp only [check_special_cases]
    rw [if_neg (by rw [hw]; simp; omega), if_neg (by omega), if_neg (by omega)]
  refine ⟨apsp_main_loop g (apsp_init_distances g D0), ?_, ?_⟩
  · unfold apsp_cpu
    rw [hcheck]
  · intro u v hu hv
    have hMeval := main_loop_eval g (apsp_init_distances g D0)
      (init_distances_eval g D0 hwf hnd) u v hu hv
    constructor
    · rw [hMeval, distK_full_eq_dist g hwf u v hu hv]
    · intro huv
      rw [hMeval, huv, distK_diag]

def c10_graph : graph_t := ⟨2, 1, [0, 1, 1], [1], [5], true⟩

theorem C10_apsp_cpu_shortest_paths_witness :
    c10_graph.weighted = true ∧ 2 ≤ c10_graph.vertex_count ∧
    1 ≤ c10_graph.edge_count ∧ graph_wf c10_graph ∧ graph_no_dup c10_graph ∧
    (∃ M, apsp_cpu (some c10_graph) (fun _ => 0) = (error_t.SUCCESS, some M) ∧
      ∀ u v, u < c10_graph.vertex_count → v < c10_graph.vertex_count →
        M (u * c10_graph.vertex_count + v) = apsp_dist c10_graph u v ∧
        (u = v → M (u * c10_graph.vertex_count + v) = 0)) :=
  ⟨rfl, by decide, by decide, by decide, by decide,
    C10_apsp_cpu_shortest_paths c10_graph (fun _ => 0) rfl (by decide) (by decide)
      (by decide) (by decide)⟩

end Totem
